import Mathlib

/-!
Formal model of the DVIS track-module variants
(hub_1125/track_module_1125.py and hub_1130/track_module_true_no_cl.py):
the similarity-guided feature fusion of `VideoInstanceSequence`, its
bounded-history caches, the inference-time identity hub of
`VideoInstanceCutter.inference`, the training-time disappearance
curriculum and validity selection of `VideoInstanceCutter.forward`, and
the chunked mask-guided positional descriptor `get_mask_pos_embed`.

Machine floats are modelled by exact real numbers; feature vectors of
hidden dimension `c` are modelled by `EuclideanSpace ℝ (Fin c)`; Python
code that can raise (the assertions inside `update` / `update_pos`) is
modelled by `Option`-returning functions, `none` meaning the call raises.
-/

noncomputable section

/-- Feature vectors of dimension `c` (a torch tensor of shape `(c,)`). -/
abbrev Feat (c : ℕ) := EuclideanSpace ℝ (Fin c)

/-- Exact-real model of `F.normalize(v, dim=-1)`: division of `v` by its
L2 norm.  For `v = 0` the Lean convention `(0 : ℝ)⁻¹ = 0` yields the zero
vector, matching the eps-clamped torch behaviour (`v / max(eps, 0) ≈ 0`). -/
def l2normalize {c : ℕ} (v : Feat c) : Feat c := ‖v‖⁻¹ • v

/-- Model of the similarity scalar of `VideoInstanceSequence.update`:
`torch.sum(torch.einsum(bc,c->b, F.normalize(all_reid_embed), F.normalize(reid_embed))) / all_reid_embed.shape[0]`,
that is the mean over the history `hist` of the dot products of each
L2-normalized history vector with the L2-normalized new vector. -/
def similarityMean {c : ℕ} (hist : List (Feat c)) (v : Feat c) : ℝ :=
  (hist.map fun u => (inner (l2normalize u) (l2normalize v) : ℝ)).sum / hist.length

/-- Model of `beta = max(0, similarity)`. -/
def fusionBeta {c : ℕ} (hist : List (Feat c)) (v : Feat c) : ℝ :=
  max 0 (similarityMean hist v)

/-- State of one `VideoInstanceSequence` record (both source variants
declare the same fields in `__init__`; `hub_1130` adds the `pos` fusion
fields used by `update_pos`).  The per-frame logs hold abstract payload
types: `E` for decoder embeddings, `L` for class logits rows, `Mk` for
predicted masks.  The fused representatives start out as Python `None`,
modelled by `Option`. -/
structure VideoInstanceSequence (c : ℕ) (E L Mk : Type) where
  sT : ℤ
  eT : ℤ := -1
  maximum_chache : ℕ := 10
  dead : Bool := false
  gt_id : ℤ := -1
  invalid_frames : ℕ := 0
  embeds : List E := []
  pred_logits : List L := []
  pred_masks : List Mk := []
  pred_valid : List Bool := []
  appearance : List Bool := []
  reid_embeds : List (Feat c) := []
  long_scores : List ℝ := []
  similarity_guided_reid_embed : Option (Feat c) := none
  similarity_guided_reid_embed_list : List (Feat c) := []
  momentum : ℝ := 0.75
  pos_embeds : List (Feat c) := []
  similarity_guided_pos_embed : Option (Feat c) := none
  similarity_guided_pos_embed_list : List (Feat c) := []

/-- Model of the constructor
`VideoInstanceSequence(start_time, matched_gt_id=-1, maximum_chache=10)`. -/
def freshSeq (c : ℕ) (E L Mk : Type) (start_time : ℤ) (matched_gt_id : ℤ)
    (maximum_chache : ℕ) : VideoInstanceSequence c E L Mk :=
  { sT := start_time, gt_id := matched_gt_id, maximum_chache := maximum_chache }

/-- Model of `VideoInstanceSequence.update(reid_embed)` (identical in
both source files).  The new vector is appended to `reid_embeds` first;
if the fused list is empty the new vector seeds the fused representative,
otherwise the similarity-guided fusion runs over `reid_embeds[:-1]`.
`none` models a raised exception: either the `assert len(reid_embeds) > 1`
failing, or the arithmetic on a fused representative that is still
Python `None`.  Finally, if the cache exceeds `maximum_chache`, the
oldest entry is popped (`pop(0)`). -/
def VideoInstanceSequence.update {c : ℕ} {E L Mk : Type}
    (s : VideoInstanceSequence c E L Mk) (reid_embed : Feat c) :
    Option (VideoInstanceSequence c E L Mk) :=
  let reids := s.reid_embeds ++ [reid_embed]
  let evicted := if s.maximum_chache < reids.length then reids.tail else reids
  if s.similarity_guided_reid_embed_list.length = 0 then
    some { s with reid_embeds := evicted,
                  similarity_guided_reid_embed := some reid_embed,
                  similarity_guided_reid_embed_list :=
                    s.similarity_guided_reid_embed_list ++ [reid_embed] }
  else if reids.length ≤ 1 then
    none
  else
    match s.similarity_guided_reid_embed with
    | none => none
    | some fused =>
      let beta := fusionBeta reids.dropLast reid_embed
      let fused2 := (1 - beta) • fused + beta • reid_embed
      some { s with reid_embeds := evicted,
                    similarity_guided_reid_embed := some fused2,
                    similarity_guided_reid_embed_list :=
                      s.similarity_guided_reid_embed_list ++ [fused2] }

/-- Model of `VideoInstanceSequence.update_pos(pos_embed)` (hub_1130):
the same similarity-guided fusion, acting on the `pos_embeds` cache and
the `similarity_guided_pos_embed` representative. -/
def VideoInstanceSequence.update_pos {c : ℕ} {E L Mk : Type}
    (s : VideoInstanceSequence c E L Mk) (pos_embed : Feat c) :
    Option (VideoInstanceSequence c E L Mk) :=
  let poss := s.pos_embeds ++ [pos_embed]
  let evicted := if s.maximum_chache < poss.length then poss.tail else poss
  if s.similarity_guided_pos_embed_list.length = 0 then
    some { s with pos_embeds := evicted,
                  similarity_guided_pos_embed := some pos_embed,
                  similarity_guided_pos_embed_list :=
                    s.similarity_guided_pos_embed_list ++ [pos_embed] }
  else if poss.length ≤ 1 then
    none
  else
    match s.similarity_guided_pos_embed with
    | none => none
    | some fused =>
      let beta := fusionBeta poss.dropLast pos_embed
      let fused2 := (1 - beta) • fused + beta • pos_embed
      some { s with pos_embeds := evicted,
                    similarity_guided_pos_embed := some fused2,
                    similarity_guided_pos_embed_list :=
                      s.similarity_guided_pos_embed_list ++ [fused2] }

/-- Iterated `update` calls on one record, propagating a raise. -/
def VideoInstanceSequence.updates {c : ℕ} {E L Mk : Type} :
    VideoInstanceSequence c E L Mk → List (Feat c) →
    Option (VideoInstanceSequence c E L Mk)
  | s, [] => some s
  | s, v :: vs =>
    match s.update v with
    | none => none
    | some s1 => s1.updates vs

/-- Iterated `update_pos` calls on one record, propagating a raise. -/
def VideoInstanceSequence.updatesPos {c : ℕ} {E L Mk : Type} :
    VideoInstanceSequence c E L Mk → List (Feat c) →
    Option (VideoInstanceSequence c E L Mk)
  | s, [] => some s
  | s, v :: vs =>
    match s.update_pos v with
    | none => none
    | some s1 => s1.updatesPos vs

/-- One step of the bounded cache of `update` / `update_pos`: append the
new vector, then pop the oldest entry when capacity `M` is exceeded. -/
def cachePush {α : Type} (M : ℕ) (acc : List α) (v : α) : List α :=
  let acc2 := acc ++ [v]
  if M < acc2.length then acc2.tail else acc2

/-- Reachability invariant of the reid-fusion state: the capacity is at
least 1, and once the fused list is seeded the cache is non-empty and
the fused representative has been assigned. -/
def fusionReidInv {c : ℕ} {E L Mk : Type} (s : VideoInstanceSequence c E L Mk) : Prop :=
  1 ≤ s.maximum_chache ∧
  (s.similarity_guided_reid_embed_list.length ≠ 0 →
    s.reid_embeds ≠ [] ∧ s.similarity_guided_reid_embed.isSome)

/-- Reachability invariant of the pos-fusion state. -/
def fusionPosInv {c : ℕ} {E L Mk : Type} (s : VideoInstanceSequence c E L Mk) : Prop :=
  1 ≤ s.maximum_chache ∧
  (s.similarity_guided_pos_embed_list.length ≠ 0 →
    s.pos_embeds ≠ [] ∧ s.similarity_guided_pos_embed.isSome)

/-- Per-query input to one frame of the identity-hub loop of
`VideoInstanceCutter.inference`: the validity decision for the query
(`pred_scores > inference_select_thr`, see `validQuery`), the
final-layer decoder row `ms_output[-1, k, 0, :]`, the class-logits row,
the predicted mask, and the id that `random.randint` would return if
this query starts a new identity.  The random draw is an oracle input;
its freshness (the `while seq_id in self.video_ins_hub` redraw loop and
the assert after it) is recorded by `slotOk`. -/
structure SlotIn (E L Mk : Type) where
  valid : Bool
  embed : E
  logit : L
  mask : Mk
  freshId : ℕ

/-- Lookup `hub[seq_id]` in the identity hub, a Python dict modelled as
an insertion-ordered association list. -/
def hubFind {R : Type} : List (ℕ × R) → ℕ → Option R
  | [], _ => none
  | p :: t, k => if p.1 = k then some p.2 else hubFind t k

/-- Assignment `hub[seq_id] = r`: replace the entry when the key is
present, append a new entry otherwise. -/
def hubSet {R : Type} (h : List (ℕ × R)) (k : ℕ) (r : R) : List (ℕ × R) :=
  if (hubFind h k).isSome then
    h.map fun p => if p.1 = k then (k, r) else p
  else h ++ [(k, r)]

/-- Resolution of the id for query slot `k`:
`last_seq_ids[k]` when `last_seq_ids is not None and k < len(last_seq_ids)`,
otherwise the freshly drawn id.  The Python `None` case coincides with
the empty list case (`k < 0` is false), so the guard is phrased over
`lastIds.getD []`. -/
def slotSeqId (lastIds : Option (List ℕ)) (k : ℕ) (fr : ℕ) : ℕ :=
  if h : k < (lastIds.getD []).length then (lastIds.getD []).get ⟨k, h⟩ else fr

/-- Body of the loop `for k, valid in enumerate(valid_queries)` of
`inference` (hub_1125 lines 519-549) for one query.  A valid query
creates its record on demand and appends this frame, resetting
`invalid_frames` to 0 and appending `appearance = True`.  An invalid
query whose id is still current increments `invalid_frames`; when the
count reaches `kick_out_frame_num = K` the record is marked dead and
skipped (`continue`, so it is not appended to `cur_seq_ids`), otherwise
the frame is appended with `appearance = False`. -/
def slotStep {c : ℕ} {E L Mk : Type} (K : ℕ) (sT : ℤ)
    (lastIds : Option (List ℕ)) (k : ℕ)
    (hub : List (ℕ × VideoInstanceSequence c E L Mk)) (cur : List ℕ)
    (sl : SlotIn E L Mk) :
    List (ℕ × VideoInstanceSequence c E L Mk) × List ℕ :=
  let seq_id := slotSeqId lastIds k sl.freshId
  if sl.valid then
    let hub0 := if (hubFind hub seq_id).isSome then hub
      else hubSet hub seq_id (freshSeq c E L Mk sT (seq_id : ℤ) 10)
    match hubFind hub0 seq_id with
    | some r =>
      (hubSet hub0 seq_id
        { r with embeds := r.embeds ++ [sl.embed],
                 pred_logits := r.pred_logits ++ [sl.logit],
                 pred_masks := r.pred_masks ++ [sl.mask],
                 invalid_frames := 0,
                 appearance := r.appearance ++ [true] }, cur ++ [seq_id])
    | none => (hub0, cur)
  else
    if seq_id ∈ lastIds.getD [] then
      match hubFind hub seq_id with
      | some r =>
        if K ≤ r.invalid_frames + 1 then
          (hubSet hub seq_id
            { r with invalid_frames := r.invalid_frames + 1,
                     dead := true }, cur)
        else
          (hubSet hub seq_id
            { r with invalid_frames := r.invalid_frames + 1,
                     embeds := r.embeds ++ [sl.embed],
                     pred_logits := r.pred_logits ++ [sl.logit],
                     pred_masks := r.pred_masks ++ [sl.mask],
                     appearance := r.appearance ++ [false] },
           cur ++ [seq_id])
      | none => (hub, cur)
    else (hub, cur)

/-- Fresh-draw soundness flag for one slot: either the slot continues a
tracked identity, or the drawn id is absent from the hub at draw time,
as the source redraw loop and its assert guarantee. -/
def slotOk {c : ℕ} {E L Mk : Type}
    (lastIds : Option (List ℕ)) (k : ℕ)
    (hub : List (ℕ × VideoInstanceSequence c E L Mk)) (sl : SlotIn E L Mk) : Bool :=
  decide (k < (lastIds.getD []).length) || (hubFind hub sl.freshId).isNone

/-- The whole per-query loop of one inference frame, processing slots in
order, accumulating `cur_seq_ids`, and conjoining per-slot freshness. -/
def processSlots {c : ℕ} {E L Mk : Type} (K : ℕ) (sT : ℤ)
    (lastIds : Option (List ℕ)) :
    ℕ → List (ℕ × VideoInstanceSequence c E L Mk) → List ℕ →
    List (SlotIn E L Mk) →
    List (ℕ × VideoInstanceSequence c E L Mk) × List ℕ × Bool
  | _, hub, cur, [] => (hub, cur, true)
  | k, hub, cur, sl :: rest =>
    let stepped := slotStep K sT lastIds k hub cur sl
    let next := processSlots K sT lastIds (k + 1) stepped.1 stepped.2 rest
    (next.1, next.2.1, slotOk lastIds k hub sl && next.2.2)

/-- The mutable per-sequence tracker state used by `inference`:
`last_seq_ids` (Python `None` before the first frame) and the identity
hub `video_ins_hub`. -/
structure CutterState (c : ℕ) (E L Mk : Type) where
  last_seq_ids : Option (List ℕ) := none
  video_ins_hub : List (ℕ × VideoInstanceSequence c E L Mk) := []

/-- The state right after `_clear_memory()` (first frame of an
unresumed sequence). -/
def clearedMemory (c : ℕ) (E L Mk : Type) : CutterState c E L Mk := {}

/-- One frame of the identity-hub update of `inference`: run the
per-query loop from slot 0 with an empty `cur_seq_ids`, then store the
new `cur_seq_ids` as `last_seq_ids`. -/
def inferenceFrame {c : ℕ} {E L Mk : Type} (K : ℕ) (sT : ℤ)
    (s : CutterState c E L Mk) (slots : List (SlotIn E L Mk)) :
    CutterState c E L Mk × Bool :=
  let out := processSlots K sT s.last_seq_ids 0 s.video_ins_hub [] slots
  ({ last_seq_ids := some out.2.1, video_ins_hub := out.1 }, out.2.2)

/-- Frames processed strictly in order, threading the tracker state; the
frame id advances by one per frame; the flag conjoins the per-frame
freshness flags. -/
def inferenceRun {c : ℕ} {E L Mk : Type} (K : ℕ) :
    ℤ → CutterState c E L Mk → List (List (SlotIn E L Mk)) →
    CutterState c E L Mk × Bool
  | _, s, [] => (s, true)
  | sT, s, f :: fs =>
    let r1 := inferenceFrame K sT s f
    let r2 := inferenceRun K (sT + 1) r1.1 fs
    (r2.1, r1.2 && r2.2)

/-- `readout(last)`: the last stored embed of every current identity in
`last_seq_ids` order.  The empty list models the empty tensor
`torch.empty((0, 1, hidden_dim))` of the zero-identity branch; each
element carries the `(1, hidden_dim)` payload of one identity. -/
def readoutLast {c : ℕ} {E L Mk : Type} (s : CutterState c E L Mk) : List E :=
  (s.last_seq_ids.getD []).filterMap fun id =>
    (hubFind s.video_ins_hub id).bind fun r => r.embeds.getLast?

/-- The `out_masks` stack built after the loop of `inference`
(hub_1125 lines 553-560); the empty list models the empty tensor
`torch.empty((1, 0, h, w))` of the zero-identity branch. -/
def outMasksLast {c : ℕ} {E L Mk : Type} (s : CutterState c E L Mk) : List Mk :=
  (s.last_seq_ids.getD []).filterMap fun id =>
    (hubFind s.video_ins_hub id).bind fun r => r.pred_masks.getLast?

/-- Reachability invariant of the inference tracker state: the current
id list has no duplicates and every current id points to a live record
of the hub. -/
def CutterStateInv {c : ℕ} {E L Mk : Type} (s : CutterState c E L Mk) : Prop :=
  (s.last_seq_ids.getD []).Nodup ∧
  ∀ id ∈ s.last_seq_ids.getD [],
    ∃ r, hubFind s.video_ins_hub id = some r ∧ r.dead = false

/-- The per-identity lifecycle automaton abstracted from the loop body:
state `(invalid_frames, dead)`.  A detection resets the counter, a miss
increments it and kills the identity when the counter reaches `K`; a
dead identity leaves `cur_seq_ids`, so its state is frozen. -/
def recStep (K : ℕ) (s : ℕ × Bool) (v : Bool) : ℕ × Bool :=
  if s.2 then s
  else if v then (0, false)
  else (s.1 + 1, decide (K ≤ s.1 + 1))

/-- The list starts with at least `K` entries that are all `false`. -/
def allFalseHead (K : ℕ) (bs : List Bool) : Bool :=
  decide (K ≤ bs.length) && (bs.take K).all fun b => !b

/-- Some contiguous window of `K` consecutive `false` entries occurs. -/
def hasFalseRun (K : ℕ) : List Bool → Bool
  | [] => decide (K = 0)
  | b :: t => allFalseHead K (b :: t) || hasFalseRun K t

/-- Per-frame oracle inputs to the disappearance curriculum: the index
drawn by `random.randrange`, the target ids matched on this frame
(`frames_info` indices), and the per-frame-query auxiliary target ids
(`frames_info` aux_indices). -/
structure CurriculumFrameIn where
  select_idx : ℕ
  frame_tgt_ids : List ℤ
  aux_tgt_ids : List ℤ

/-- Outputs of the disappearance-curriculum block. -/
structure CurriculumResult where
  disappear_tgt_id : Option ℤ
  disappear_trcQ_id : Option ℕ
  disappeared_tgt_ids : List ℤ
  disappear_fq_mask : List Bool

/-- The disappearance-curriculum block of `VideoInstanceCutter.forward`
(hub_1125 lines 239-267).  A slot is drawn only when strictly more than
2 target ids are under track; injection then happens only in the
`using_thr` mode, only once per sample window (`disappeared_tgt_ids`
still empty), and only when the drawn target id is not `-1` and occurs
among the frame targets; otherwise `disappear_tgt_id` stays `None`. -/
def curriculumStep (using_thr : Bool)
    (tgt_ids_for_track_queries : Option (List ℤ))
    (disappeared_tgt_ids : List ℤ) (inp : CurriculumFrameIn) : CurriculumResult :=
  let mask0 := inp.aux_tgt_ids.map fun _ => false
  match tgt_ids_for_track_queries with
  | none => ⟨none, none, disappeared_tgt_ids, mask0⟩
  | some tids =>
    if 2 < tids.length then
      let select_tgt_id := tids.getD inp.select_idx 0
      if (!using_thr) || decide (0 < disappeared_tgt_ids.length) then
        ⟨none, none, disappeared_tgt_ids, mask0⟩
      else if select_tgt_id ≠ -1 ∧ select_tgt_id ∈ inp.frame_tgt_ids then
        ⟨some select_tgt_id, some inp.select_idx,
         disappeared_tgt_ids ++ [select_tgt_id],
         inp.aux_tgt_ids.map fun t => decide (t = select_tgt_id)⟩
      else ⟨none, none, disappeared_tgt_ids, mask0⟩
    else ⟨none, none, disappeared_tgt_ids, mask0⟩

/-- The emitted record field
`-10000 if self.disappear_tgt_id is None else self.disappear_tgt_id`. -/
def emitDisappearTgtId (d : Option ℤ) : ℤ := d.getD (-10000)

/-- Frames 1.. of one training forward pass: thread
`disappeared_tgt_ids` through the curriculum and collect the emitted
`disappear_tgt_id` of each frame. -/
def curriculumFrames (using_thr : Bool) :
    List ℤ → List (Option (List ℤ) × CurriculumFrameIn) → List ℤ
  | _, [] => []
  | disappeared, f :: fs =>
    let r := curriculumStep using_thr f.1 disappeared f.2
    emitDisappearTgtId r.disappear_tgt_id ::
      curriculumFrames using_thr r.disappeared_tgt_ids fs

/-- A whole unresumed training forward call: on frame 0 the memory is
cleared (`disappeared_tgt_ids = []`, `disappear_tgt_id = None`, so the
sentinel is emitted, curriculum not engaged), then the curriculum runs
on every later frame. -/
def curriculumRunEmits (using_thr : Bool)
    (frames : List (Option (List ℤ) × CurriculumFrameIn)) : List ℤ :=
  (-10000) :: curriculumFrames using_thr [] frames

/-- Scatter assignment
`t = full(-1); t[indices_src] = indices_tgt` over query indices:
later writes win, unassigned positions keep `-1`. -/
def scatterAssign (srcs : List ℕ) (tgts : List ℤ) : ℕ → ℤ :=
  (srcs.zip tgts).foldl (fun f p => fun q => if q = p.1 then p.2 else f q)
    fun _ => -1

/-- `kick_out_src_indices = indices_src[select_track_queries]`: the
matched source indices whose random drop coin (`rand > 0.5`, an oracle
input here) came up true. -/
def kickOutSrcIndices (srcs : List ℕ) (drops : List Bool) : List ℕ :=
  (srcs.zip drops).filterMap fun p => if p.2 then some p.1 else none

/-- `tgt_ids_for_each_query` on the first frame after the random drop:
matched targets scattered in, then the kicked indices reset to `-1`
(hub_1125 lines 339-346). -/
def tgtIdsFirstFrame (srcs : List ℕ) (tgts : List ℤ) (drops : List Bool)
    (q : ℕ) : ℤ :=
  if q ∈ kickOutSrcIndices srcs drops then -1 else scatterAssign srcs tgts q

/-- First-frame validity with the gate disabled
(`disappearance_mask[kick_out_src_indices] = True;
valid_track_query = ~disappearance_mask`, hub_1125 lines 348-352):
a query is valid unless its index was kicked out. -/
def validTrackQueryFirstFrame (srcs : List ℕ) (drops : List Bool) (q : ℕ) : Bool :=
  !(decide (q ∈ kickOutSrcIndices srcs drops))

/-- Later-frame validity with the gate disabled
(`valid_track_query = ones < 0; valid_track_query[indices_src] = True`,
hub_1125 lines 369-370): a query is valid exactly when the matcher
assigned it a target. -/
def validTrackQueryLaterFrame (srcs : List ℕ) (q : ℕ) : Bool :=
  decide (q ∈ srcs)

/-- Exact-real logistic sigmoid. -/
def sigmoid (x : ℝ) : ℝ := 1 / (1 + Real.exp (-x))

/-- Softmax probability of class `j` among the `m + 2` class logits
(`m + 1` foreground classes plus one background column). -/
def softmaxProb {m : ℕ} (logits : Fin (m + 2) → ℝ) (j : Fin (m + 2)) : ℝ :=
  Real.exp (logits j) / ∑ i, Real.exp (logits i)

/-- `pred_scores` of `inference`
(`torch.max(outputs_class[-1, 0].softmax(-1)[:, :-1], dim=1)[0]`): the
maximum over the foreground classes, background column excluded, of the
softmax class probabilities. -/
def predScore {m : ℕ} (logits : Fin (m + 2) → ℝ) : ℝ :=
  Finset.univ.sup' Finset.univ_nonempty fun j : Fin (m + 1) =>
    softmaxProb logits j.castSucc

/-- The inference validity gate `pred_scores > inference_select_thr`. -/
def validQuery {m : ℕ} (thr : ℝ) (logits : Fin (m + 2) → ℝ) : Prop :=
  thr < predScore logits

/-- Readout of one query column of the chunk body of
`get_mask_pos_embed` (hub_1130, lines 659-696).  Every tensor operation
of the chunk body treats query columns independently: the matmul
contracts over channels, the affinity and the gating are elementwise,
and the max, softmax and readout reduce over the `n + 1` flattened
spatial positions.  The chunk body is therefore the map of this
function over the columns of the chunk.  `mk` is the projected key map
`mask_feature_k(mask_features)` flattened, `mfeat` the flattened
`mask_features`, `qcol` the column of `query_k(decoder_norm(...))` for
this query, `mlog` its flattened mask logits, `D` the hidden dimension
of the scaling.  Gating keeps the affinity inside the thresholded
sigmoid mask and writes `-1e+6` outside
(`affinity * seg_mask - 1e+6 * bg_mask`); the softmax subtracts the
per-column max and divides by the sum plus `1e-8`. -/
def colReadout (n C Cm D : ℕ) (mk : Fin (n + 1) → Fin C → ℝ)
    (mfeat : Fin (n + 1) → Fin Cm → ℝ) (mask_out : Bool)
    (qcol : Fin C → ℝ) (mlog : Fin (n + 1) → ℝ) : Fin Cm → ℝ :=
  let a_sq : Fin (n + 1) → ℝ := fun p => ∑ ch, (mk p ch) ^ 2
  let ab : Fin (n + 1) → ℝ := fun p => ∑ ch, mk p ch * qcol ch
  let affinity0 : Fin (n + 1) → ℝ := fun p => (2 * ab p - a_sq p) / Real.sqrt D
  let affinity1 : Fin (n + 1) → ℝ := fun p =>
    if mask_out then
      (if 1 / 2 < sigmoid (mlog p) then affinity0 p else 0) -
        (if 1 / 2 < sigmoid (mlog p) then 0 else 1e+6)
    else affinity0 p
  let maxes : ℝ := Finset.univ.sup' Finset.univ_nonempty affinity1
  let x_exp : Fin (n + 1) → ℝ := fun p => Real.exp (affinity1 p - maxes)
  let x_exp_sum : ℝ := ∑ p, x_exp p
  let affinity2 : Fin (n + 1) → ℝ := fun p => x_exp p / (x_exp_sum + 1e-8)
  fun ch => ∑ p, mfeat p ch * affinity2 p

/-- Python slice `cols[start:stop]`. -/
def pythonSlice {α : Type} (cols : List α) (start stop : ℕ) : List α :=
  (cols.drop start).take (stop - start)

/-- The chunk loop of `get_mask_pos_embed` (hub_1130): queries are
processed 50 at a time (`num_chunk = q // 50 + 1`, slice bounds
`start = i * 50`, `end = start + 50 if start + 50 < q else q` as in the
source), each chunk producing its per-column readouts, and the chunk
results are concatenated (`torch.cat(pos_embeds_list, dim=0)`). -/
def getMaskPosEmbedChunks (n C Cm D : ℕ) (mk : Fin (n + 1) → Fin C → ℝ)
    (mfeat : Fin (n + 1) → Fin Cm → ℝ) (mask_out : Bool)
    (cols : List ((Fin C → ℝ) × (Fin (n + 1) → ℝ))) : List (Fin Cm → ℝ) :=
  ((List.range (cols.length / 50 + 1)).map fun i =>
    let start := i * 50
    let stop := if start + 50 < cols.length then start + 50 else cols.length
    (pythonSlice cols start stop).map fun qm =>
      colReadout n C Cm D mk mfeat mask_out qm.1 qm.2).flatten

/-- Processing all queries in one single chunk: the spec-side reference
computation for the chunk-transparency claim (modelled from the spec
sentence that chunk size does not affect the numeric result). -/
def getMaskPosEmbedSingle (n C Cm D : ℕ) (mk : Fin (n + 1) → Fin C → ℝ)
    (mfeat : Fin (n + 1) → Fin Cm → ℝ) (mask_out : Bool)
    (cols : List ((Fin C → ℝ) × (Fin (n + 1) → ℝ))) : List (Fin Cm → ℝ) :=
  cols.map fun qm => colReadout n C Cm D mk mfeat mask_out qm.1 qm.2

/-- The mask-pooled positional embedding `get_mask_pos_embed` of
hub_1125 (lines 577-587): per query, the mask features are averaged
over the locations inside the thresholded sigmoid mask with the `1e-8`
guard, and the external `pos_embed` MLP `posNet` is applied.
The per-query structure is the per-row action of the broadcasted tensor
operations of the source. -/
def getMaskPosEmbed1125 (hw Cm Ch : ℕ) (posNet : (Fin Cm → ℝ) → Fin Ch → ℝ)
    (mfeat : Fin hw → Fin Cm → ℝ) (masks : List (Fin hw → ℝ)) :
    List (Fin Ch → ℝ) :=
  masks.map fun m =>
    posNet fun chn =>
      (∑ p, if 1 / 2 < sigmoid (m p) then mfeat p chn else 0) /
        ((∑ p, if 1 / 2 < sigmoid (m p) then (1 : ℝ) else 0) + 1e-8)

/-- Query-set construction of a non-initial frame:
`pilot = torch.cat([track_queries, new_ins_embeds], dim=0)` where
`new_ins_embeds` repeats the shared learned seed `num_new_ins` times. -/
def pilotQueries {E : Type} (track_queries : List E) (num_new_ins : ℕ)
    (seed : E) : List E :=
  track_queries ++ List.replicate num_new_ins seed

/-- A concrete one-identity tracker state (id 5, live record). -/
def c1WitState : CutterState 0 ℕ ℕ ℕ :=
  { last_seq_ids := some [5],
    video_ins_hub := [(5, freshSeq 0 ℕ ℕ ℕ 0 5 10)] }

/-- A concrete invalid slot input. -/
def c1WitSlot : SlotIn ℕ ℕ ℕ := ⟨false, 0, 0, 0, 99⟩

/-- A concrete tracker state holding one dead record (id 5) that is no
longer current. -/
def c1DeadState : CutterState 0 ℕ ℕ ℕ :=
  { last_seq_ids := some [],
    video_ins_hub :=
      [(5, { freshSeq 0 ℕ ℕ ℕ 0 5 10 with dead := true, invalid_frames := 8 })] }

/-- A concrete valid new-identity slot input with fresh id 7. -/
def c1NewSlot : SlotIn ℕ ℕ ℕ := ⟨true, 0, 0, 0, 7⟩

theorem norm_l2normalize_le_one {c : ℕ} (v : Feat c) : ‖l2normalize v‖ ≤ 1 := by
  unfold l2normalize
  rcases eq_or_ne v 0 with h | h
  · simp [h]
  · rw [norm_smul, norm_inv, norm_norm, inv_mul_cancel₀ (norm_ne_zero_iff.mpr h)]

theorem similarityMean_le_one {c : ℕ} (hist : List (Feat c)) (v : Feat c) :
    similarityMean hist v ≤ 1 := by
  unfold similarityMean
  rcases hist.eq_nil_or_concat with h | _
  · simp [h]
  have hsum : (hist.map fun u => (inner (l2normalize u) (l2normalize v) : ℝ)).sum ≤
      (hist.length : ℝ) := by
    have := List.sum_le_card_nsmul
      (hist.map fun u => (inner (l2normalize u) (l2normalize v) : ℝ)) 1 ?_
    · simpa using this
    · intro x hx
      obtain ⟨u, _, rfl⟩ := List.mem_map.mp hx
      calc (inner (l2normalize u) (l2normalize v) : ℝ)
          ≤ ‖l2normalize u‖ * ‖l2normalize v‖ := real_inner_le_norm _ _
        _ ≤ 1 * 1 :=
            mul_le_mul (norm_l2normalize_le_one u) (norm_l2normalize_le_one v)
              (norm_nonneg _) zero_le_one
        _ = 1 := one_mul 1
  rcases Nat.eq_zero_or_pos hist.length with hl | hl
  · simp [hl]
  · rw [div_le_one (by exact_mod_cast hl)]
    exact hsum

theorem fusionBeta_nonneg {c : ℕ} (hist : List (Feat c)) (v : Feat c) :
    0 ≤ fusionBeta hist v := le_max_left 0 _

theorem fusionBeta_le_one {c : ℕ} (hist : List (Feat c)) (v : Feat c) :
    fusionBeta hist v ≤ 1 :=
  max_le zero_le_one (similarityMean_le_one hist v)

theorem cachePush_ne_nil {α : Type} (M : ℕ) (hM : 1 ≤ M) (acc : List α) (v : α) :
    cachePush M acc v ≠ [] := by
  unfold cachePush
  by_cases h : M < (acc ++ [v]).length
  · rw [if_pos h]
    have hlen : (acc ++ [v]).length = acc.length + 1 := by simp
    intro hnil
    have htl := List.length_tail (acc ++ [v])
    rw [hnil] at htl
    simp only [List.length_nil] at htl
    omega
  · rw [if_neg h]
    simp

theorem cachePush_foldl {α : Type} (M : ℕ) (hM : 1 ≤ M) :
    ∀ (vs : List α) (A : List α), A.length ≤ M →
      vs.foldl (cachePush M) A = (A ++ vs).drop ((A ++ vs).length - M) := by
  intro vs
  induction vs with
  | nil =>
    intro A hA
    simp [Nat.sub_eq_zero_of_le hA]
  | cons v t ih =>
    intro A hA
    rw [List.foldl_cons]
    by_cases h : M < (A ++ [v]).length
    · have hl : (A ++ [v]).length = A.length + 1 := by simp
      have hAM : A.length = M := by omega
      have hAne : A ≠ [] := by
        intro hnil
        rw [hnil] at hAM
        simp at hAM
        omega
      have hstep : cachePush M A v = (A ++ [v]).tail := by
        unfold cachePush
        rw [if_pos h]
      rw [hstep]
      have htl : (A ++ [v]).tail.length ≤ M := by
        rw [List.length_tail]
        simp
        omega
      rw [ih _ htl]
      have h1 : (A ++ [v]).tail ++ t = (A ++ v :: t).tail := by
        obtain ⟨a, A0, rfl⟩ := List.exists_cons_of_ne_nil hAne
        simp
      rw [h1]
      have h2 : ((A ++ v :: t).tail).length = (A ++ v :: t).length - 1 :=
        List.length_tail _
      have h3 : (A ++ v :: t).length = M + 1 + t.length := by
        simp
        omega
      rw [List.drop_tail]
      congr 1
      omega
    · have hstep : cachePush M A v = A ++ [v] := by
        unfold cachePush
        rw [if_neg h]
      have hle : (A ++ [v]).length ≤ M := Nat.le_of_not_lt h
      rw [hstep, ih _ hle]
      have : A ++ [v] ++ t = A ++ v :: t := by simp
      rw [this]

theorem update_cache_eq {c : ℕ} {E L Mk : Type}
    (s : VideoInstanceSequence c E L Mk) (v : Feat c)
    (s1 : VideoInstanceSequence c E L Mk) (h : s.update v = some s1) :
    s1.reid_embeds = cachePush s.maximum_chache s.reid_embeds v ∧
    s1.maximum_chache = s.maximum_chache := by
  unfold VideoInstanceSequence.update at h
  by_cases h0 : s.similarity_guided_reid_embed_list.length = 0
  · rw [if_pos h0] at h
    have := Option.some_inj.mp h
    subst this
    exact ⟨rfl, rfl⟩
  · rw [if_neg h0] at h
    by_cases h1 : (s.reid_embeds ++ [v]).length ≤ 1
    · rw [if_pos h1] at h
      cases h
    · rw [if_neg h1] at h
      cases hf : s.similarity_guided_reid_embed with
      | none => rw [hf] at h; cases h
      | some f =>
        rw [hf] at h
        have := Option.some_inj.mp h
        subst this
        exact ⟨rfl, rfl⟩

theorem update_pos_cache_eq {c : ℕ} {E L Mk : Type}
    (s : VideoInstanceSequence c E L Mk) (v : Feat c)
    (s1 : VideoInstanceSequence c E L Mk) (h : s.update_pos v = some s1) :
    s1.pos_embeds = cachePush s.maximum_chache s.pos_embeds v ∧
    s1.maximum_chache = s.maximum_chache := by
  unfold VideoInstanceSequence.update_pos at h
  by_cases h0 : s.similarity_guided_pos_embed_list.length = 0
  · rw [if_pos h0] at h
    have := Option.some_inj.mp h
    subst this
    exact ⟨rfl, rfl⟩
  · rw [if_neg h0] at h
    by_cases h1 : (s.pos_embeds ++ [v]).length ≤ 1
    · rw [if_pos h1] at h
      cases h
    · rw [if_neg h1] at h
      cases hf : s.similarity_guided_pos_embed with
      | none => rw [hf] at h; cases h
      | some f =>
        rw [hf] at h
        have := Option.some_inj.mp h
        subst this
        exact ⟨rfl, rfl⟩

theorem updates_cache {c : ℕ} {E L Mk : Type} :
    ∀ (vs : List (Feat c)) (s s1 : VideoInstanceSequence c E L Mk),
      s.updates vs = some s1 →
      s1.reid_embeds = vs.foldl (cachePush s.maximum_chache) s.reid_embeds ∧
      s1.maximum_chache = s.maximum_chache := by
  intro vs
  induction vs with
  | nil =>
    intro s s1 h
    simp only [VideoInstanceSequence.updates] at h
    have := Option.some_inj.mp h
    subst this
    exact ⟨rfl, rfl⟩
  | cons v t ih =>
    intro s s1 h
    simp only [VideoInstanceSequence.updates] at h
    cases hu : s.update v with
    | none => rw [hu] at h; cases h
    | some s2 =>
      rw [hu] at h
      obtain ⟨hc, hm⟩ := update_cache_eq s v s2 hu
      obtain ⟨hc2, hm2⟩ := ih s2 s1 h
      refine ⟨?_, by rw [hm2, hm]⟩
      rw [hc2, hm, hc, List.foldl_cons]

theorem updatesPos_cache {c : ℕ} {E L Mk : Type} :
    ∀ (vs : List (Feat c)) (s s1 : VideoInstanceSequence c E L Mk),
      s.updatesPos vs = some s1 →
      s1.pos_embeds = vs.foldl (cachePush s.maximum_chache) s.pos_embeds ∧
      s1.maximum_chache = s.maximum_chache := by
  intro vs
  induction vs with
  | nil =>
    intro s s1 h
    simp only [VideoInstanceSequence.updatesPos] at h
    have := Option.some_inj.mp h
    subst this
    exact ⟨rfl, rfl⟩
  | cons v t ih =>
    intro s s1 h
    simp only [VideoInstanceSequence.updatesPos] at h
    cases hu : s.update_pos v with
    | none => rw [hu] at h; cases h
    | some s2 =>
      rw [hu] at h
      obtain ⟨hc, hm⟩ := update_pos_cache_eq s v s2 hu
      obtain ⟨hc2, hm2⟩ := ih s2 s1 h
      refine ⟨?_, by rw [hm2, hm]⟩
      rw [hc2, hm, hc, List.foldl_cons]

theorem update_total_of_inv {c : ℕ} {E L Mk : Type}
    (s : VideoInstanceSequence c E L Mk) (hInv : fusionReidInv s) (v : Feat c) :
    ∃ s1, s.update v = some s1 ∧ fusionReidInv s1 := by
  obtain ⟨hM, hseed⟩ := hInv
  by_cases h0 : s.similarity_guided_reid_embed_list.length = 0
  · refine ⟨{ s with
        reid_embeds := cachePush s.maximum_chache s.reid_embeds v,
        similarity_guided_reid_embed := some v,
        similarity_guided_reid_embed_list := s.similarity_guided_reid_embed_list ++ [v] },
      ?_, ⟨hM, fun _ => ⟨cachePush_ne_nil _ hM _ _, rfl⟩⟩⟩
    simp only [VideoInstanceSequence.update]
    rw [if_pos h0]
    rfl
  · obtain ⟨hne, hsome⟩ := hseed h0
    obtain ⟨f, hf⟩ := Option.isSome_iff_exists.mp hsome
    have hlp : 0 < s.reid_embeds.length := List.length_pos.mpr hne
    have hgt : ¬(s.reid_embeds ++ [v]).length ≤ 1 := by
      simp only [List.length_append, List.length_singleton]
      omega
    refine ⟨{ s with
        reid_embeds := cachePush s.maximum_chache s.reid_embeds v,
        similarity_guided_reid_embed :=
          some ((1 - fusionBeta (s.reid_embeds ++ [v]).dropLast v) • f +
            fusionBeta (s.reid_embeds ++ [v]).dropLast v • v),
        similarity_guided_reid_embed_list := s.similarity_guided_reid_embed_list ++
          [(1 - fusionBeta (s.reid_embeds ++ [v]).dropLast v) • f +
            fusionBeta (s.reid_embeds ++ [v]).dropLast v • v] },
      ?_, ⟨hM, fun _ => ⟨cachePush_ne_nil _ hM _ _, rfl⟩⟩⟩
    simp only [VideoInstanceSequence.update]
    rw [if_neg h0, if_neg hgt, hf]
    rfl

theorem update_pos_total_of_inv {c : ℕ} {E L Mk : Type}
    (s : VideoInstanceSequence c E L Mk) (hInv : fusionPosInv s) (v : Feat c) :
    ∃ s1, s.update_pos v = some s1 ∧ fusionPosInv s1 := by
  obtain ⟨hM, hseed⟩ := hInv
  by_cases h0 : s.similarity_guided_pos_embed_list.length = 0
  · refine ⟨{ s with
        pos_embeds := cachePush s.maximum_chache s.pos_embeds v,
        similarity_guided_pos_embed := some v,
        similarity_guided_pos_embed_list := s.similarity_guided_pos_embed_list ++ [v] },
      ?_, ⟨hM, fun _ => ⟨cachePush_ne_nil _ hM _ _, rfl⟩⟩⟩
    simp only [VideoInstanceSequence.update_pos]
    rw [if_pos h0]
    rfl
  · obtain ⟨hne, hsome⟩ := hseed h0
    obtain ⟨f, hf⟩ := Option.isSome_iff_exists.mp hsome
    have hlp : 0 < s.pos_embeds.length := List.length_pos.mpr hne
    have hgt : ¬(s.pos_embeds ++ [v]).length ≤ 1 := by
      simp only [List.length_append, List.length_singleton]
      omega
    refine ⟨{ s with
        pos_embeds := cachePush s.maximum_chache s.pos_embeds v,
        similarity_guided_pos_embed :=
          some ((1 - fusionBeta (s.pos_embeds ++ [v]).dropLast v) • f +
            fusionBeta (s.pos_embeds ++ [v]).dropLast v • v),
        similarity_guided_pos_embed_list := s.similarity_guided_pos_embed_list ++
          [(1 - fusionBeta (s.pos_embeds ++ [v]).dropLast v) • f +
            fusionBeta (s.pos_embeds ++ [v]).dropLast v • v] },
      ?_, ⟨hM, fun _ => ⟨cachePush_ne_nil _ hM _ _, rfl⟩⟩⟩
    simp only [VideoInstanceSequence.update_pos]
    rw [if_neg h0, if_neg hgt, hf]
    rfl

theorem updates_total {c : ℕ} {E L Mk : Type} :
    ∀ (vs : List (Feat c)) (s : VideoInstanceSequence c E L Mk),
      fusionReidInv s → ∃ s1, s.updates vs = some s1 ∧ fusionReidInv s1 := by
  intro vs
  induction vs with
  | nil => intro s h; exact ⟨s, rfl, h⟩
  | cons v t ih =>
    intro s h
    obtain ⟨s2, hu, h2⟩ := update_total_of_inv s h v
    obtain ⟨s1, hrun, h1⟩ := ih s2 h2
    refine ⟨s1, ?_, h1⟩
    simp only [VideoInstanceSequence.updates, hu, hrun]

theorem updatesPos_total {c : ℕ} {E L Mk : Type} :
    ∀ (vs : List (Feat c)) (s : VideoInstanceSequence c E L Mk),
      fusionPosInv s → ∃ s1, s.updatesPos vs = some s1 ∧ fusionPosInv s1 := by
  intro vs
  induction vs with
  | nil => intro s h; exact ⟨s, rfl, h⟩
  | cons v t ih =>
    intro s h
    obtain ⟨s2, hu, h2⟩ := update_pos_total_of_inv s h v
    obtain ⟨s1, hrun, h1⟩ := ih s2 h2
    refine ⟨s1, ?_, h1⟩
    simp only [VideoInstanceSequence.updatesPos, hu, hrun]

theorem freshSeq_reidInv {c : ℕ} {E L Mk : Type} (sT g : ℤ) (M : ℕ) (hM : 1 ≤ M) :
    fusionReidInv (freshSeq c E L Mk sT g M) :=
  ⟨hM, fun h => absurd rfl h⟩

theorem freshSeq_posInv {c : ℕ} {E L Mk : Type} (sT g : ℤ) (M : ℕ) (hM : 1 ≤ M) :
    fusionPosInv (freshSeq c E L Mk sT g M) :=
  ⟨hM, fun h => absurd rfl h⟩

/-- C2: similarity-guided fusion is a convex combination.  For every
`VideoInstanceSequence.update` call on a record whose fused history is
non-empty, the scalar `beta = max(0, mean of the dot products of each
L2-normalized historical vector with the L2-normalized new vector)` lies
in `[0, 1]` in exact arithmetic, and the updated fused representative
equals `(1 - beta) * fused_old + beta * v`, so it lies on the segment
between the previous fused value and the new vector. -/
theorem C2_fusion_convex_combination {c : ℕ} {E L Mk : Type}
    (s : VideoInstanceSequence c E L Mk) (v : Feat c)
    (s1 : VideoInstanceSequence c E L Mk)
    (hne : s.similarity_guided_reid_embed_list.length ≠ 0)
    (h : s.update v = some s1) :
    0 ≤ fusionBeta s.reid_embeds v ∧ fusionBeta s.reid_embeds v ≤ 1 ∧
    ∃ f, s.similarity_guided_reid_embed = some f ∧
      s1.similarity_guided_reid_embed =
        some ((1 - fusionBeta s.reid_embeds v) • f +
          fusionBeta s.reid_embeds v • v) := by
  refine ⟨fusionBeta_nonneg _ _, fusionBeta_le_one _ _, ?_⟩
  simp only [VideoInstanceSequence.update] at h
  rw [if_neg hne] at h
  by_cases h1 : (s.reid_embeds ++ [v]).length ≤ 1
  · rw [if_pos h1] at h; cases h
  · rw [if_neg h1] at h
    cases hf : s.similarity_guided_reid_embed with
    | none => rw [hf] at h; cases h
    | some f =>
      rw [hf] at h
      have := Option.some_inj.mp h
      subst this
      refine ⟨f, rfl, ?_⟩
      have hdl : (s.reid_embeds ++ [v]).dropLast = s.reid_embeds := by simp
      simp only [hdl]

/-- Concrete instance backing `C2_fusion_convex_combination`: a record
seeded with one vector, then updated with the same vector. -/
theorem C2_fusion_convex_combination_witness :
    ∃ s1 s2 : VideoInstanceSequence 1 ℕ ℕ ℕ,
      (freshSeq 1 ℕ ℕ ℕ 0 (-1) 10).update (EuclideanSpace.single 0 1) = some s1 ∧
      s1.update (EuclideanSpace.single 0 1) = some s2 ∧
      (0 ≤ fusionBeta s1.reid_embeds (EuclideanSpace.single 0 1) ∧
       fusionBeta s1.reid_embeds (EuclideanSpace.single 0 1) ≤ 1 ∧
       ∃ f, s1.similarity_guided_reid_embed = some f ∧
         s2.similarity_guided_reid_embed =
           some ((1 - fusionBeta s1.reid_embeds (EuclideanSpace.single 0 1)) • f +
             fusionBeta s1.reid_embeds (EuclideanSpace.single 0 1) •
               (EuclideanSpace.single 0 1))) := by
  refine ⟨_, _, rfl, rfl, ?_⟩
  exact C2_fusion_convex_combination _ _ _ (by decide) rfl

/-- C7: bounded-history cache invariant.  Along any successful sequence
of `update` (resp. `update_pos`) calls on a freshly constructed record
with capacity `M ≥ 1`, the `reid_embeds` (resp. `pos_embeds`) history
holds at most `M` entries, it always equals the suffix of the inserted
vectors of length at most `M` (FIFO eviction, insertion order kept), and
after inserting `M + 1` vectors it is exactly the tail (the oldest
inserted vector is gone, the newest `M` remain in order). -/
theorem C7_bounded_history_cache {c : ℕ} {E L Mk : Type} (M : ℕ) (hM : 1 ≤ M)
    (sT g : ℤ) (vs ps : List (Feat c)) (s1 t1 : VideoInstanceSequence c E L Mk)
    (hv : (freshSeq c E L Mk sT g M).updates vs = some s1)
    (hp : (freshSeq c E L Mk sT g M).updatesPos ps = some t1) :
    (s1.reid_embeds.length ≤ M ∧ s1.reid_embeds = vs.drop (vs.length - M) ∧
      (vs.length = M + 1 → s1.reid_embeds = vs.tail)) ∧
    (t1.pos_embeds.length ≤ M ∧ t1.pos_embeds = ps.drop (ps.length - M) ∧
      (ps.length = M + 1 → t1.pos_embeds = ps.tail)) := by
  obtain ⟨hc, _⟩ := updates_cache vs _ s1 hv
  obtain ⟨hc2, _⟩ := updatesPos_cache ps _ t1 hp
  have hfold := cachePush_foldl M hM vs ([] : List (Feat c)) (by simp)
  have hfold2 := cachePush_foldl M hM ps ([] : List (Feat c)) (by simp)
  simp only [List.nil_append] at hfold hfold2
  have hres : s1.reid_embeds = vs.drop (vs.length - M) := by
    rw [hc]; exact hfold
  have hres2 : t1.pos_embeds = ps.drop (ps.length - M) := by
    rw [hc2]; exact hfold2
  constructor
  · refine ⟨?_, hres, ?_⟩
    · rw [hres, List.length_drop]; omega
    · intro hlen
      rw [hres, hlen]
      have : M + 1 - M = 1 := by omega
      rw [this, List.drop_one]
  · refine ⟨?_, hres2, ?_⟩
    · rw [hres2, List.length_drop]; omega
    · intro hlen
      rw [hres2, hlen]
      have : M + 1 - M = 1 := by omega
      rw [this, List.drop_one]

/-- Concrete instance backing `C7_bounded_history_cache`: capacity 1,
two inserted vectors; the resulting caches hold exactly the second. -/
theorem C7_bounded_history_cache_witness :
    ∃ s1 t1 : VideoInstanceSequence 1 ℕ ℕ ℕ,
      (freshSeq 1 ℕ ℕ ℕ 0 (-1) 1).updates
        [EuclideanSpace.single 0 1, EuclideanSpace.single 0 2] = some s1 ∧
      (freshSeq 1 ℕ ℕ ℕ 0 (-1) 1).updatesPos
        [EuclideanSpace.single 0 1, EuclideanSpace.single 0 2] = some t1 ∧
      ((s1.reid_embeds.length ≤ 1 ∧
        s1.reid_embeds =
          ([EuclideanSpace.single 0 1, EuclideanSpace.single 0 2] :
            List (Feat 1)).drop
            (([EuclideanSpace.single 0 1, EuclideanSpace.single 0 2] :
              List (Feat 1)).length - 1) ∧
        (([EuclideanSpace.single 0 1, EuclideanSpace.single 0 2] :
            List (Feat 1)).length = 1 + 1 →
          s1.reid_embeds =
            ([EuclideanSpace.single 0 1, EuclideanSpace.single 0 2] :
              List (Feat 1)).tail)) ∧
       (t1.pos_embeds.length ≤ 1 ∧
        t1.pos_embeds =
          ([EuclideanSpace.single 0 1, EuclideanSpace.single 0 2] :
            List (Feat 1)).drop
            (([EuclideanSpace.single 0 1, EuclideanSpace.single 0 2] :
              List (Feat 1)).length - 1) ∧
        (([EuclideanSpace.single 0 1, EuclideanSpace.single 0 2] :
            List (Feat 1)).length = 1 + 1 →
          t1.pos_embeds =
            ([EuclideanSpace.single 0 1, EuclideanSpace.single 0 2] :
              List (Feat 1)).tail))) := by
  refine ⟨_, _, rfl, rfl, ?_⟩
  exact C7_bounded_history_cache 1 le_rfl 0 (-1) _ _ _ _ rfl rfl

/-- C10: the fusion update is division-safe.  From a freshly constructed
record with capacity `M ≥ 1`, any sequence of `update` (resp.
`update_pos`) calls succeeds: the internal `assert len(...) > 1` never
fails (captured by the run returning `some`), because the new vector is
appended before the branch test and FIFO eviction never empties the
history.  Moreover, from any state satisfying the reachability
invariant, whenever the non-seed branch executes (the fused list is
non-empty) the similarity divisor `all_embed.shape[0]`, the length of
the appended history minus its last element, is at least 1. -/
theorem C10_fusion_division_safe {c : ℕ} {E L Mk : Type} (M : ℕ) (hM : 1 ≤ M)
    (sT g : ℤ) (vs ps : List (Feat c)) :
    (∃ s1, (freshSeq c E L Mk sT g M).updates vs = some s1) ∧
    (∃ t1, (freshSeq c E L Mk sT g M).updatesPos ps = some t1) ∧
    (∀ (s : VideoInstanceSequence c E L Mk) (v : Feat c),
      fusionReidInv s → s.similarity_guided_reid_embed_list.length ≠ 0 →
      1 ≤ (s.reid_embeds ++ [v]).dropLast.length) ∧
    (∀ (s : VideoInstanceSequence c E L Mk) (v : Feat c),
      fusionPosInv s → s.similarity_guided_pos_embed_list.length ≠ 0 →
      1 ≤ (s.pos_embeds ++ [v]).dropLast.length) := by
  refine ⟨?_, ?_, ?_, ?_⟩
  · obtain ⟨s1, hrun, _⟩ := updates_total vs _ (freshSeq_reidInv sT g M hM)
    exact ⟨s1, hrun⟩
  · obtain ⟨t1, hrun, _⟩ := updatesPos_total ps _ (freshSeq_posInv sT g M hM)
    exact ⟨t1, hrun⟩
  · intro s v hInv hne
    obtain ⟨hcne, _⟩ := hInv.2 hne
    have hdl : (s.reid_embeds ++ [v]).dropLast = s.reid_embeds := by simp
    rw [hdl]
    exact List.length_pos.mpr hcne
  · intro s v hInv hne
    obtain ⟨hcne, _⟩ := hInv.2 hne
    have hdl : (s.pos_embeds ++ [v]).dropLast = s.pos_embeds := by simp
    rw [hdl]
    exact List.length_pos.mpr hcne

/-- Concrete instance backing `C10_fusion_division_safe` at the default
capacity 10. -/
theorem C10_fusion_division_safe_witness :
    (∃ s1, (freshSeq 1 ℕ ℕ ℕ 0 (-1) 10).updates
      [EuclideanSpace.single 0 1, EuclideanSpace.single 0 2] = some s1) ∧
    (∃ t1, (freshSeq 1 ℕ ℕ ℕ 0 (-1) 10).updatesPos
      [EuclideanSpace.single 0 1, EuclideanSpace.single 0 2] = some t1) ∧
    (∀ (s : VideoInstanceSequence 1 ℕ ℕ ℕ) (v : Feat 1),
      fusionReidInv s → s.similarity_guided_reid_embed_list.length ≠ 0 →
      1 ≤ (s.reid_embeds ++ [v]).dropLast.length) ∧
    (∀ (s : VideoInstanceSequence 1 ℕ ℕ ℕ) (v : Feat 1),
      fusionPosInv s → s.similarity_guided_pos_embed_list.length ≠ 0 →
      1 ≤ (s.pos_embeds ++ [v]).dropLast.length) :=
  C10_fusion_division_safe 10 (by omega) 0 (-1)
    [EuclideanSpace.single 0 1, EuclideanSpace.single 0 2]
    [EuclideanSpace.single 0 1, EuclideanSpace.single 0 2]

theorem hubFind_map_set {R : Type} (k : ℕ) (r : R) :
    ∀ h : List (ℕ × R), (hubFind h k).isSome →
      hubFind (h.map fun p => if p.1 = k then (k, r) else p) k = some r := by
  intro h
  induction h with
  | nil => intro hs; simp [hubFind] at hs
  | cons p t ih =>
    intro hs
    by_cases hp : p.1 = k
    · simp [hubFind, hp]
    · simp only [List.map_cons, if_neg hp, hubFind]
      apply ih
      simpa [hubFind, if_neg hp] using hs

theorem hubFind_append_set {R : Type} (k : ℕ) (r : R) :
    ∀ h : List (ℕ × R), hubFind h k = none →
      hubFind (h ++ [(k, r)]) k = some r := by
  intro h
  induction h with
  | nil => intro _; simp [hubFind]
  | cons p t ih =>
    intro hn
    by_cases hp : p.1 = k
    · simp [hubFind, hp] at hn
    · simp only [List.cons_append, hubFind]
      rw [if_neg hp]
      apply ih
      simpa [hubFind, if_neg hp] using hn

theorem hubFind_map_set_ne {R : Type} (k k' : ℕ) (r : R) (hne : k' ≠ k) :
    ∀ h : List (ℕ × R),
      hubFind (h.map fun p => if p.1 = k then (k, r) else p) k' = hubFind h k' := by
  intro h
  induction h with
  | nil => rfl
  | cons p t ih =>
    by_cases hp : p.1 = k
    · simp only [List.map_cons, if_pos hp, hubFind]
      rw [if_neg (Ne.symm hne), if_neg (by rw [hp]; exact Ne.symm hne)]
      exact ih
    · simp only [List.map_cons, if_neg hp, hubFind]
      by_cases hpk : p.1 = k'
      · rw [if_pos hpk, if_pos hpk]
      · rw [if_neg hpk, if_neg hpk]; exact ih

theorem hubFind_append_ne {R : Type} (k k' : ℕ) (r : R) (hne : k' ≠ k) :
    ∀ h : List (ℕ × R), hubFind (h ++ [(k, r)]) k' = hubFind h k' := by
  intro h
  induction h with
  | nil => simp [hubFind, Ne.symm hne]
  | cons p t ih =>
    simp only [List.cons_append, hubFind]
    by_cases hpk : p.1 = k'
    · rw [if_pos hpk, if_pos hpk]
    · rw [if_neg hpk, if_neg hpk]; exact ih

theorem hubFind_hubSet_self {R : Type} (h : List (ℕ × R)) (k : ℕ) (r : R) :
    hubFind (hubSet h k r) k = some r := by
  unfold hubSet
  by_cases hs : (hubFind h k).isSome
  · rw [if_pos hs]; exact hubFind_map_set k r h hs
  · rw [if_neg hs]
    exact hubFind_append_set k r h (Option.not_isSome_iff_eq_none.mp hs)

theorem hubFind_hubSet_ne {R : Type} (h : List (ℕ × R)) (k k' : ℕ) (r : R)
    (hne : k' ≠ k) : hubFind (hubSet h k r) k' = hubFind h k' := by
  unfold hubSet
  by_cases hs : (hubFind h k).isSome
  · rw [if_pos hs]; exact hubFind_map_set_ne k k' r hne h
  · rw [if_neg hs]; exact hubFind_append_ne k k' r hne h

theorem mem_drop_of_mem_drop_succ {α : Type} {l : List α} {k : ℕ} {a : α}
    (h : a ∈ l.drop (k + 1)) : a ∈ l.drop k := by
  have heq : (l.drop k).drop 1 = l.drop (k + 1) := by
    rw [List.drop_drop, Nat.add_comm]
  rw [← heq] at h
  exact List.mem_of_mem_drop h

theorem get_mem_drop {α : Type} (l : List α) (k : ℕ) (hk : k < l.length) :
    l.get ⟨k, hk⟩ ∈ l.drop k := by
  rw [List.drop_eq_getElem_cons hk]
  exact List.mem_cons_self _ _

theorem nodup_get_not_mem_drop_succ {α : Type} {l : List α} (hnd : l.Nodup)
    (k : ℕ) (hk : k < l.length) : l.get ⟨k, hk⟩ ∉ l.drop (k + 1) := by
  have hsplit : l.take (k + 1) ++ l.drop (k + 1) = l := List.take_append_drop _ _
  have hnd2 : (l.take (k + 1) ++ l.drop (k + 1)).Nodup := by rw [hsplit]; exact hnd
  have hdisj := (List.nodup_append.mp hnd2).2.2
  have hmem : l.get ⟨k, hk⟩ ∈ l.take (k + 1) := by
    rw [List.take_succ]
    apply List.mem_append_right
    rw [List.getElem?_eq_getElem hk]
    simp
  intro hin
  exact hdisj hmem hin

theorem slotSeqId_ne_of_not_mem {c : ℕ} {E L Mk : Type}
    (lastIds : Option (List ℕ)) (k : ℕ)
    (hub : List (ℕ × VideoInstanceSequence c E L Mk)) (sl : SlotIn E L Mk)
    (id : ℕ) (r : VideoInstanceSequence c E L Mk)
    (hfind : hubFind hub id = some r)
    (hnot : id ∉ (lastIds.getD []).drop k)
    (hok : slotOk lastIds k hub sl = true) :
    slotSeqId lastIds k sl.freshId ≠ id := by
  simp only [slotSeqId]
  by_cases hkl : k < (lastIds.getD []).length
  · rw [dif_pos hkl]
    intro hEq
    exact hnot (hEq ▸ get_mem_drop _ k hkl)
  · rw [dif_neg hkl]
    intro hEq
    have hfr : (hubFind hub sl.freshId).isNone = true := by
      simpa [slotOk, hkl] using hok
    rw [hEq, hfind] at hfr
    simp at hfr

theorem slotStep_untouched {c : ℕ} {E L Mk : Type} (K : ℕ) (sT : ℤ)
    (lastIds : Option (List ℕ)) (k : ℕ)
    (hub : List (ℕ × VideoInstanceSequence c E L Mk)) (cur : List ℕ)
    (sl : SlotIn E L Mk) (id : ℕ) (r : VideoInstanceSequence c E L Mk)
    (hfind : hubFind hub id = some r)
    (hseq : slotSeqId lastIds k sl.freshId ≠ id) :
    hubFind (slotStep K sT lastIds k hub cur sl).1 id = some r ∧
    ((slotStep K sT lastIds k hub cur sl).2 = cur ∨
     (slotStep K sT lastIds k hub cur sl).2 =
       cur ++ [slotSeqId lastIds k sl.freshId]) := by
  have hid : id ≠ slotSeqId lastIds k sl.freshId := Ne.symm hseq
  simp only [slotStep]
  by_cases hv : sl.valid = true
  · rw [if_pos hv]
    by_cases h0 : (hubFind hub (slotSeqId lastIds k sl.freshId)).isSome
    · rw [if_pos h0]
      cases hr0 : hubFind hub (slotSeqId lastIds k sl.freshId) with
      | none => rw [hr0] at h0; simp at h0
      | some r2 =>
        simp only [hr0]
        exact ⟨(hubFind_hubSet_ne _ _ _ _ hid).trans hfind, Or.inr trivial⟩
    · rw [if_neg h0]
      rw [hubFind_hubSet_self]
      exact ⟨(hubFind_hubSet_ne _ _ _ _ hid).trans
        ((hubFind_hubSet_ne _ _ _ _ hid).trans hfind), Or.inr rfl⟩
  · rw [if_neg hv]
    by_cases hmem : slotSeqId lastIds k sl.freshId ∈ lastIds.getD []
    · rw [if_pos hmem]
      cases hr0 : hubFind hub (slotSeqId lastIds k sl.freshId) with
      | none =>
        simp only [hr0]
        exact ⟨hfind, Or.inl trivial⟩
      | some r2 =>
        simp only [hr0]
        by_cases hK : K ≤ r2.invalid_frames + 1
        · rw [if_pos hK]
          exact ⟨(hubFind_hubSet_ne _ _ _ _ hid).trans hfind, Or.inl rfl⟩
        · rw [if_neg hK]
          exact ⟨(hubFind_hubSet_ne _ _ _ _ hid).trans hfind, Or.inr rfl⟩
    · rw [if_neg hmem]
      exact ⟨hfind, Or.inl rfl⟩

theorem processSlots_untouched {c : ℕ} {E L Mk : Type} (K : ℕ) (sT : ℤ)
    (lastIds : Option (List ℕ)) (id : ℕ) (r : VideoInstanceSequence c E L Mk) :
    ∀ (slots : List (SlotIn E L Mk)) (k : ℕ)
      (hub : List (ℕ × VideoInstanceSequence c E L Mk)) (cur : List ℕ),
      hubFind hub id = some r →
      id ∉ (lastIds.getD []).drop k →
      (processSlots K sT lastIds k hub cur slots).2.2 = true →
      hubFind (processSlots K sT lastIds k hub cur slots).1 id = some r ∧
      (id ∈ (processSlots K sT lastIds k hub cur slots).2.1 ↔ id ∈ cur) := by
  intro slots
  induction slots with
  | nil => intro k hub cur hf _ _; exact ⟨hf, Iff.rfl⟩
  | cons sl rest ih =>
    intro k hub cur hf hnot hok
    simp only [processSlots] at hok ⊢
    rw [Bool.and_eq_true] at hok
    obtain ⟨hok1, hok2⟩ := hok
    have hseq := slotSeqId_ne_of_not_mem lastIds k hub sl id r hf hnot hok1
    obtain ⟨hf', hcur'⟩ :=
      slotStep_untouched K sT lastIds k hub cur sl id r hf hseq
    have hnot' : id ∉ (lastIds.getD []).drop (k + 1) := fun hmem =>
      hnot (mem_drop_of_mem_drop_succ hmem)
    have hrec := ih (k + 1) (slotStep K sT lastIds k hub cur sl).1
      (slotStep K sT lastIds k hub cur sl).2 hf' hnot' hok2
    refine ⟨hrec.1, ?_⟩
    rw [hrec.2]
    rcases hcur' with h | h
    · rw [h]
    · rw [h]
      simp [List.mem_append, Ne.symm hseq]

theorem slotStep_tracked {c : ℕ} {E L Mk : Type} (K : ℕ) (sT : ℤ)
    (lastIds : Option (List ℕ)) (k : ℕ) (hk : k < (lastIds.getD []).length)
    (hub : List (ℕ × VideoInstanceSequence c E L Mk)) (cur : List ℕ)
    (sl : SlotIn E L Mk) (r : VideoInstanceSequence c E L Mk)
    (hfind : hubFind hub ((lastIds.getD []).get ⟨k, hk⟩) = some r)
    (hdead : r.dead = false) :
    ∃ r', hubFind (slotStep K sT lastIds k hub cur sl).1
        ((lastIds.getD []).get ⟨k, hk⟩) = some r' ∧
      (r'.invalid_frames, r'.dead) =
        recStep K (r.invalid_frames, r.dead) sl.valid ∧
      (sl.valid = true → r'.invalid_frames = 0) ∧
      ((slotStep K sT lastIds k hub cur sl).2 =
        if r'.dead then cur else cur ++ [(lastIds.getD []).get ⟨k, hk⟩]) := by
  have hsq : slotSeqId lastIds k sl.freshId = (lastIds.getD []).get ⟨k, hk⟩ := by
    simp only [slotSeqId]
    rw [dif_pos hk]
  simp only [slotStep, hsq]
  by_cases hv : sl.valid = true
  · rw [if_pos hv, hv]
    have h0 : (hubFind hub ((lastIds.getD []).get ⟨k, hk⟩)).isSome := by
      rw [hfind]; rfl
    rw [if_pos h0]
    simp only [hfind]
    refine ⟨_, hubFind_hubSet_self _ _ _, ?_, ?_, ?_⟩
    · simp only [recStep, hdead]
      simp
    · intro _; rfl
    · rw [hdead]
      simp
  · rw [if_neg hv]
    have hvf : sl.valid = false := by
      cases hvb : sl.valid
      · rfl
      · exact absurd hvb hv
    rw [hvf]
    have hmem : (lastIds.getD []).get ⟨k, hk⟩ ∈ lastIds.getD [] :=
      List.get_mem _ _ _
    rw [if_pos hmem]
    simp only [hfind]
    by_cases hK : K ≤ r.invalid_frames + 1
    · rw [if_pos hK]
      refine ⟨_, hubFind_hubSet_self _ _ _, ?_, ?_, ?_⟩
      · simp only [recStep, hdead]
        simp [hK]
      · intro hc; cases hc
      · simp
    · rw [if_neg hK]
      refine ⟨_, hubFind_hubSet_self _ _ _, ?_, ?_, ?_⟩
      · simp only [recStep, hdead]
        simp [hK]
      · intro hc; cases hc
      · rw [hdead]
        simp

theorem processSlots_tracked {c : ℕ} {E L Mk : Type} (K : ℕ) (sT : ℤ)
    (lastIds : Option (List ℕ)) (hnd : (lastIds.getD []).Nodup) (kq : ℕ)
    (hk : kq < (lastIds.getD []).length) (r : VideoInstanceSequence c E L Mk)
    (hdead : r.dead = false) :
    ∀ (slots : List (SlotIn E L Mk)) (j : ℕ)
      (hub : List (ℕ × VideoInstanceSequence c E L Mk)) (cur : List ℕ),
      j ≤ kq → kq - j < slots.length →
      hubFind hub ((lastIds.getD []).get ⟨kq, hk⟩) = some r →
      (lastIds.getD []).get ⟨kq, hk⟩ ∉ cur →
      (processSlots K sT lastIds j hub cur slots).2.2 = true →
      ∃ r' sl, slots.get? (kq - j) = some sl ∧
        hubFind (processSlots K sT lastIds j hub cur slots).1
          ((lastIds.getD []).get ⟨kq, hk⟩) = some r' ∧
        (r'.invalid_frames, r'.dead) =
          recStep K (r.invalid_frames, r.dead) sl.valid ∧
        (sl.valid = true → r'.invalid_frames = 0) ∧
        ((lastIds.getD []).get ⟨kq, hk⟩ ∈
            (processSlots K sT lastIds j hub cur slots).2.1 ↔
          r'.dead = false) := by
  intro slots
  induction slots with
  | nil =>
    intro j hub cur hj hlen
    simp at hlen
  | cons sl rest ih =>
    intro j hub cur hj hlen hfind hcur hok
    simp only [processSlots] at hok ⊢
    rw [Bool.and_eq_true] at hok
    obtain ⟨hok1, hok2⟩ := hok
    by_cases hjk : j = kq
    · subst hjk
      rw [Nat.sub_self]
      obtain ⟨r', hf', hpair, hreset, hcureq⟩ :=
        slotStep_tracked K sT lastIds j hk hub cur sl r hfind hdead
      have hnot : (lastIds.getD []).get ⟨j, hk⟩ ∉ (lastIds.getD []).drop (j + 1) :=
        nodup_get_not_mem_drop_succ hnd j hk
      have hunt := processSlots_untouched K sT lastIds
        ((lastIds.getD []).get ⟨j, hk⟩) r' rest (j + 1)
        (slotStep K sT lastIds j hub cur sl).1
        (slotStep K sT lastIds j hub cur sl).2 hf' hnot hok2
      refine ⟨r', sl, rfl, hunt.1, hpair, hreset, ?_⟩
      rw [hunt.2, hcureq]
      by_cases hd : r'.dead
      · rw [if_pos hd, hd]
        simp only [Bool.true_eq_false, iff_false]
        simpa using hcur
      · rw [if_neg hd]
        simp only [List.mem_append, List.mem_singleton]
        simp [hd, hcur]
    · have hjlt : j < kq := by omega
      have hseq : slotSeqId lastIds j sl.freshId ≠
          (lastIds.getD []).get ⟨kq, hk⟩ := by
        simp only [slotSeqId]
        by_cases hjl : j < (lastIds.getD []).length
        · rw [dif_pos hjl]
          intro hEq
          have := (List.Nodup.get_inj_iff hnd).mp hEq
          simp at this
          omega
        · rw [dif_neg hjl]
          intro hEq
          have hfr : (hubFind hub sl.freshId).isNone = true := by
            simpa [slotOk, hjl] using hok1
          rw [hEq, hfind] at hfr
          simp at hfr
      obtain ⟨hf', hcur'⟩ := slotStep_untouched K sT lastIds j hub cur sl
        ((lastIds.getD []).get ⟨kq, hk⟩) r hfind hseq
      have hcur2 : (lastIds.getD []).get ⟨kq, hk⟩ ∉
          (slotStep K sT lastIds j hub cur sl).2 := by
        rcases hcur' with h | h
        · rw [h]; exact hcur
        · rw [h]
          simp only [List.mem_append, List.mem_singleton]
          rintro (h1 | h2)
          · exact hcur h1
          · exact hseq h2.symm
      have hrec := ih (j + 1) (slotStep K sT lastIds j hub cur sl).1
        (slotStep K sT lastIds j hub cur sl).2 (by omega) (by
          simp only [List.length_cons] at hlen
          omega) hf' hcur2 hok2
      obtain ⟨r', sl', hget, hfound, hpair, hreset, hmemiff⟩ := hrec
      refine ⟨r', sl', ?_, hfound, hpair, hreset, hmemiff⟩
      rw [show kq - j = (kq - (j + 1)) + 1 by omega]
      simpa using hget

theorem recStep_frozen (K : ℕ) (n : ℕ) :
    ∀ bs : List Bool, bs.foldl (recStep K) (n, true) = (n, true) := by
  intro bs
  induction bs with
  | nil => rfl
  | cons b t ih =>
    rw [List.foldl_cons]
    have hstep : recStep K (n, true) b = (n, true) := by
      simp [recStep]
    rw [hstep]
    exact ih

theorem hasFalseRun_replicate_false (K : ℕ) (hK : 1 ≤ K) :
    ∀ cnum : ℕ,
      hasFalseRun K (List.replicate cnum false) = decide (K ≤ cnum) := by
  intro cnum
  induction cnum with
  | zero =>
    simp only [List.replicate_zero, hasFalseRun]
    have h1 : ¬ K = 0 := by omega
    have h2 : ¬ K ≤ 0 := by omega
    simp [h1, h2]
  | succ n ih =>
    rw [List.replicate_succ, hasFalseRun, ← List.replicate_succ, ih]
    have hhead : allFalseHead K (List.replicate (n + 1) false) =
        decide (K ≤ n + 1) := by
      unfold allFalseHead
      rw [List.take_replicate, List.length_replicate]
      have hall : (List.replicate (min K (n + 1)) false).all (fun b => !b) = true := by
        simp [List.all_eq_true]
      rw [hall, Bool.and_true]
    rw [hhead]
    by_cases h1 : K ≤ n + 1
    · by_cases h2 : K ≤ n <;> simp [h1, h2]
    · have h2 : ¬ K ≤ n := by omega
      simp [h1, h2]

theorem allFalseHead_replicate_true (K : ℕ) (t : List Bool) :
    ∀ cnum : ℕ, cnum < K →
      allFalseHead K (List.replicate cnum false ++ true :: t) = false := by
  intro cnum hc
  unfold allFalseHead
  rw [List.take_append_eq_append_take, List.take_replicate, List.length_replicate]
  have hmin : min K cnum = cnum := by omega
  rw [hmin]
  obtain ⟨d, hd⟩ : ∃ d, K - cnum = d + 1 := ⟨K - cnum - 1, by omega⟩
  rw [hd, List.take_succ_cons, List.all_append]
  simp

theorem hasFalseRun_replicate_append_true (K : ℕ) (t : List Bool) :
    ∀ cnum : ℕ, cnum < K →
      hasFalseRun K (List.replicate cnum false ++ true :: t) =
        hasFalseRun K t := by
  intro cnum
  induction cnum with
  | zero =>
    intro hc
    simp only [List.replicate_zero, List.nil_append, hasFalseRun]
    rw [show (true :: t = List.replicate 0 false ++ true :: t) from rfl]
    rw [allFalseHead_replicate_true K t 0 hc]
    simp
  | succ n ih =>
    intro hc
    have hrw : List.replicate (n + 1) false ++ true :: t =
        false :: (List.replicate n false ++ true :: t) := by
      rw [List.replicate_succ, List.cons_append]
    rw [hrw, hasFalseRun, ← hrw, allFalseHead_replicate_true K t (n + 1) hc,
      ih (by omega)]
    simp

theorem hasFalseRun_replicate_prefix (K : ℕ) (t : List Bool) :
    hasFalseRun K (List.replicate K false ++ t) = true := by
  cases hrep : List.replicate K false ++ t with
  | nil =>
    have : K = 0 := by
      have := congrArg List.length hrep
      simp at this
      omega
    simp [hasFalseRun, this]
  | cons b bs =>
    rw [hasFalseRun, ← hrep]
    have hhead : allFalseHead K (List.replicate K false ++ t) = true := by
      unfold allFalseHead
      rw [List.take_append_eq_append_take, List.take_replicate,
        List.length_replicate]
      have hmin : min K K = K := by omega
      have hz : K - K = 0 := by omega
      rw [hmin, hz, List.take_zero, List.append_nil, List.length_append,
        List.length_replicate]
      have hall : (List.replicate K false).all (fun b => !b) = true := by
        simp [List.all_eq_true]
      rw [hall, Bool.and_true]
      simp
    rw [hhead]
    simp

theorem recStep_foldl_eq (K : ℕ) (hK : 1 ≤ K) :
    ∀ (bs : List Bool) (cnum : ℕ), cnum < K →
      (bs.foldl (recStep K) (cnum, false)).2 =
        hasFalseRun K (List.replicate cnum false ++ bs) := by
  intro bs
  induction bs with
  | nil =>
    intro cnum hc
    rw [List.foldl_nil, List.append_nil, hasFalseRun_replicate_false K hK]
    have : ¬ K ≤ cnum := by omega
    simp [this]
  | cons b t ih =>
    intro cnum hc
    rw [List.foldl_cons]
    cases b with
    | true =>
      have hstep : recStep K (cnum, false) true = (0, false) := by
        simp [recStep]
      rw [hstep, ih 0 (by omega), hasFalseRun_replicate_append_true K t cnum hc]
      simp
    | false =>
      have happ : List.replicate cnum false ++ false :: t =
          List.replicate (cnum + 1) false ++ t := by
        rw [List.replicate_succ']
        simp
      by_cases hdie : K ≤ cnum + 1
      · have hstep : recStep K (cnum, false) false = (cnum + 1, true) := by
          simp [recStep, hdie]
        rw [hstep, recStep_frozen]
        have hKc : cnum + 1 = K := by omega
        rw [happ, hKc, hasFalseRun_replicate_prefix]
      · have hstep : recStep K (cnum, false) false = (cnum + 1, false) := by
          simp [recStep, hdie]
        rw [hstep, ih (cnum + 1) (by omega), happ]

theorem inferenceFrame_dead_frozen {c : ℕ} {E L Mk : Type} (K : ℕ) (sT : ℤ)
    (s : CutterState c E L Mk) (slots : List (SlotIn E L Mk)) (id : ℕ)
    (r : VideoInstanceSequence c E L Mk)
    (hfind : hubFind s.video_ins_hub id = some r)
    (hnot : id ∉ s.last_seq_ids.getD [])
    (hok : (inferenceFrame K sT s slots).2 = true) :
    hubFind (inferenceFrame K sT s slots).1.video_ins_hub id = some r ∧
    id ∉ (inferenceFrame K sT s slots).1.last_seq_ids.getD [] := by
  simp only [inferenceFrame] at hok ⊢
  have hnot0 : id ∉ (s.last_seq_ids.getD []).drop 0 := by
    rw [List.drop_zero]; exact hnot
  have h := processSlots_untouched K sT s.last_seq_ids id r slots 0
    s.video_ins_hub [] hfind hnot0 hok
  refine ⟨h.1, ?_⟩
  intro hmem
  exact List.not_mem_nil id (h.2.mp hmem)

theorem inferenceRun_dead_frozen {c : ℕ} {E L Mk : Type} (K : ℕ) :
    ∀ (frames : List (List (SlotIn E L Mk))) (sT : ℤ)
      (s : CutterState c E L Mk) (id : ℕ) (r : VideoInstanceSequence c E L Mk),
      hubFind s.video_ins_hub id = some r →
      id ∉ s.last_seq_ids.getD [] →
      (inferenceRun K sT s frames).2 = true →
      hubFind (inferenceRun K sT s frames).1.video_ins_hub id = some r ∧
      id ∉ (inferenceRun K sT s frames).1.last_seq_ids.getD [] := by
  intro frames
  induction frames with
  | nil => intro sT s id r hf hn _; exact ⟨hf, hn⟩
  | cons f fs ih =>
    intro sT s id r hf hn hok
    simp only [inferenceRun] at hok ⊢
    rw [Bool.and_eq_true] at hok
    obtain ⟨h1, h2⟩ := hok
    obtain ⟨hf', hn'⟩ := inferenceFrame_dead_frozen K sT s f id r hf hn h1
    exact ih (sT + 1) (inferenceFrame K sT s f).1 id r hf' hn' h2

/-- C1: identity lifecycle during inference.  Conjunct 1: in each frame
of `inference`, the record of the identity at tracked slot `kq`
transitions exactly by the lifecycle automaton `recStep` applied to the
validity bit of its slot; in particular a valid detection resets
`invalid_frames` to 0, and after the frame the identity remains in
`cur_seq_ids` exactly while it is not dead.  Conjunct 2: iterating the
automaton from a freshly detected state `(0, false)` ends dead if and
only if the validity bits contain `K = kick_out_frame_num` consecutive
misses with no intervening detection (`hasFalseRun`), so an identity
never dies in fewer than `K` consecutive misses.  Conjunct 3: once a
record is dead it is never touched again and its id never reappears in
`last_seq_ids` (hence in no later track-query set) for the rest of the
run. -/
theorem C1_identity_lifecycle {c : ℕ} {E L Mk : Type} (K : ℕ) (hK : 1 ≤ K) :
    (∀ (sT : ℤ) (s : CutterState c E L Mk) (slots : List (SlotIn E L Mk))
       (l : List ℕ) (kq : ℕ) (hk : kq < l.length)
       (r : VideoInstanceSequence c E L Mk),
       s.last_seq_ids = some l → l.Nodup →
       hubFind s.video_ins_hub (l.get ⟨kq, hk⟩) = some r → r.dead = false →
       l.length ≤ slots.length →
       (inferenceFrame K sT s slots).2 = true →
       ∃ r' sl, slots.get? kq = some sl ∧
         hubFind (inferenceFrame K sT s slots).1.video_ins_hub
           (l.get ⟨kq, hk⟩) = some r' ∧
         (r'.invalid_frames, r'.dead) =
           recStep K (r.invalid_frames, r.dead) sl.valid ∧
         (sl.valid = true → r'.invalid_frames = 0) ∧
         (l.get ⟨kq, hk⟩ ∈
             (inferenceFrame K sT s slots).1.last_seq_ids.getD [] ↔
           r'.dead = false)) ∧
    (∀ bs : List Bool,
       (bs.foldl (recStep K) (0, false)).2 = hasFalseRun K bs) ∧
    (∀ (frames : List (List (SlotIn E L Mk))) (sT : ℤ)
       (s : CutterState c E L Mk) (id : ℕ)
       (r : VideoInstanceSequence c E L Mk),
       CutterStateInv s →
       hubFind s.video_ins_hub id = some r → r.dead = true →
       (inferenceRun K sT s frames).2 = true →
       hubFind (inferenceRun K sT s frames).1.video_ins_hub id = some r ∧
       id ∉ (inferenceRun K sT s frames).1.last_seq_ids.getD []) := by
  refine ⟨?_, ?_, ?_⟩
  · intro sT s slots l kq hk r hl hnd hfind hdead hlen hok
    obtain ⟨lsi, hub⟩ := s
    simp only at hl hfind
    subst hl
    simp only [inferenceFrame] at hok ⊢
    have h := processSlots_tracked K sT (some l) hnd kq hk r hdead slots 0 hub
      [] (by omega) (by omega) hfind (List.not_mem_nil _) hok
    obtain ⟨r', sl, hget, hfound, hpair, hreset, hmem⟩ := h
    exact ⟨r', sl, hget, hfound, hpair, hreset, hmem⟩
  · intro bs
    have h := recStep_foldl_eq K hK bs 0 (by omega)
    simpa using h
  · intro frames sT s id r hInv hfind hdead hok
    have hnot : id ∉ s.last_seq_ids.getD [] := by
      intro hmem
      obtain ⟨r0, hf0, hd0⟩ := hInv.2 id hmem
      rw [hfind] at hf0
      have := Option.some_inj.mp hf0
      rw [← this] at hd0
      rw [hdead] at hd0
      cases hd0
    exact inferenceRun_dead_frozen K frames sT s id r hfind hnot hok

/-- Concrete instance backing `C1_identity_lifecycle` at
`K = kick_out_frame_num = 8`: a live tracked identity misses one frame;
the automaton run of two consecutive misses; and a dead record staying
dead and absent while a new identity is created. -/
theorem C1_identity_lifecycle_witness :
    (∃ r' sl, [c1WitSlot].get? 0 = some sl ∧
       hubFind (inferenceFrame 8 0 c1WitState [c1WitSlot]).1.video_ins_hub
         5 = some r' ∧
       (r'.invalid_frames, r'.dead) =
         recStep 8 ((freshSeq 0 ℕ ℕ ℕ 0 5 10).invalid_frames,
           (freshSeq 0 ℕ ℕ ℕ 0 5 10).dead) sl.valid ∧
       (sl.valid = true → r'.invalid_frames = 0) ∧
       (5 ∈ (inferenceFrame 8 0 c1WitState [c1WitSlot]).1.last_seq_ids.getD []
         ↔ r'.dead = false)) ∧
    (([false, false].foldl (recStep 8) (0, false)).2 =
      hasFalseRun 8 [false, false]) ∧
    (hubFind (inferenceRun 8 0 c1DeadState [[c1NewSlot]]).1.video_ins_hub 5 =
       some { freshSeq 0 ℕ ℕ ℕ 0 5 10 with dead := true, invalid_frames := 8 } ∧
     5 ∉ (inferenceRun 8 0 c1DeadState [[c1NewSlot]]).1.last_seq_ids.getD []) := by
  refine ⟨?_, ?_, ?_⟩
  · exact (C1_identity_lifecycle 8 (by omega)).1 0 c1WitState [c1WitSlot] [5] 0
      (by decide) _ rfl (by decide) rfl rfl (by decide) rfl
  · exact (@C1_identity_lifecycle 0 ℕ ℕ ℕ 8 (by omega)).2.1 [false, false]
  · exact (@C1_identity_lifecycle 0 ℕ ℕ ℕ 8 (by omega)).2.2 [[c1NewSlot]] 0
      c1DeadState 5 _
      ⟨by decide, by intro id h; exact absurd h (List.not_mem_nil id)⟩ rfl rfl rfl

theorem processSlots_none_all_invalid {c : ℕ} {E L Mk : Type} (K : ℕ) (sT : ℤ) :
    ∀ (slots : List (SlotIn E L Mk)) (k : ℕ) (cur : List ℕ),
      (∀ sl ∈ slots, sl.valid = false) →
      processSlots K sT none k
        ([] : List (ℕ × VideoInstanceSequence c E L Mk)) cur slots =
        ([], cur, true) := by
  intro slots
  induction slots with
  | nil => intro k cur _; rfl
  | cons sl rest ih =>
    intro k cur hv
    have hvs : sl.valid = false := hv sl (List.mem_cons_self _ _)
    have hstep : slotStep K sT none k
        ([] : List (ℕ × VideoInstanceSequence c E L Mk)) cur sl = ([], cur) := by
      simp only [slotStep]
      rw [if_neg (by rw [hvs]; simp)]
      simp
    have hok : slotOk (none : Option (List ℕ)) k
        ([] : List (ℕ × VideoInstanceSequence c E L Mk)) sl = true := by
      simp [slotOk, hubFind]
    simp only [processSlots, hstep]
    rw [ih (k + 1) cur (fun x hm => hv x (List.mem_cons_of_mem _ hm))]
    simp [hok]

/-- C9: zero-detection tolerance.  A first inference frame with zero
valid queries produces the well-defined empty state: `last_seq_ids`
becomes the empty list (not `None`), the hub stays empty, `readout`
returns the empty stack modelling `torch.empty((0, 1, hidden_dim))` and
the mask stack is the empty `torch.empty((1, 0, h, w))`; moreover the
mask-guided descriptor computations of both variants map an empty query
set to an empty result, and the next query-set construction degrades to
the `num_new_ins` new-instance slots alone — no stage needs a non-empty
input. -/
theorem C9_zero_detection_tolerance {c : ℕ} {E L Mk : Type} (K : ℕ) (sT : ℤ) :
    (∀ slots : List (SlotIn E L Mk),
       (∀ sl ∈ slots, sl.valid = false) →
       inferenceFrame K sT (clearedMemory c E L Mk) slots =
         ({ last_seq_ids := some [], video_ins_hub := [] }, true) ∧
       readoutLast (inferenceFrame K sT (clearedMemory c E L Mk) slots).1 = [] ∧
       outMasksLast (inferenceFrame K sT (clearedMemory c E L Mk) slots).1 = []) ∧
    (∀ (n C Cm D : ℕ) (mk : Fin (n + 1) → Fin C → ℝ)
       (mfeat : Fin (n + 1) → Fin Cm → ℝ) (mo : Bool),
       getMaskPosEmbedChunks n C Cm D mk mfeat mo [] = []) ∧
    (∀ (hw Cm Ch : ℕ) (posNet : (Fin Cm → ℝ) → Fin Ch → ℝ)
       (mfeat : Fin hw → Fin Cm → ℝ),
       getMaskPosEmbed1125 hw Cm Ch posNet mfeat [] = []) ∧
    (∀ (num_new_ins : ℕ) (seed : E),
       pilotQueries ([] : List E) num_new_ins seed =
         List.replicate num_new_ins seed ∧
       (pilotQueries ([] : List E) num_new_ins seed).length = num_new_ins) := by
  refine ⟨?_, ?_, ?_, ?_⟩
  · intro slots hv
    have h := @processSlots_none_all_invalid c E L Mk K sT slots 0 [] hv
    have hstate : inferenceFrame K sT (clearedMemory c E L Mk) slots =
        ({ last_seq_ids := some [], video_ins_hub := [] }, true) := by
      simp only [inferenceFrame, clearedMemory]
      rw [h]
    refine ⟨hstate, ?_, ?_⟩
    · rw [hstate]; rfl
    · rw [hstate]; rfl
  · intro n C Cm D mk mfeat mo
    simp [getMaskPosEmbedChunks, pythonSlice, List.range_succ]
  · intro hw Cm Ch posNet mfeat
    rfl
  · intro num_new_ins seed
    exact ⟨rfl, by simp [pilotQueries]⟩

/-- Concrete instance backing `C9_zero_detection_tolerance`: a frame of
two invalid queries on a cleared tracker. -/
theorem C9_zero_detection_tolerance_witness :
    (inferenceFrame 8 0 (clearedMemory 0 ℕ ℕ ℕ)
        [⟨false, 0, 0, 0, 3⟩, ⟨false, 0, 0, 0, 4⟩] =
      ({ last_seq_ids := some [], video_ins_hub := [] }, true)) ∧
    readoutLast (inferenceFrame 8 0 (clearedMemory 0 ℕ ℕ ℕ)
        [⟨false, 0, 0, 0, 3⟩, ⟨false, 0, 0, 0, 4⟩]).1 = [] ∧
    outMasksLast (inferenceFrame 8 0 (clearedMemory 0 ℕ ℕ ℕ)
        [⟨false, 0, 0, 0, 3⟩, ⟨false, 0, 0, 0, 4⟩]).1 = [] ∧
    getMaskPosEmbedChunks 0 1 1 256 (fun _ _ => 0) (fun _ _ => 0) true [] = [] ∧
    getMaskPosEmbed1125 1 1 1 (fun v => v) (fun _ _ => 0) [] = [] ∧
    pilotQueries ([] : List ℕ) 100 7 = List.replicate 100 7 ∧
    (pilotQueries ([] : List ℕ) 100 7).length = 100 := by
  obtain ⟨hA, hB, hC, hD⟩ := @C9_zero_detection_tolerance 0 ℕ ℕ ℕ 8 0
  obtain ⟨h1, h2, h3⟩ := hA [⟨false, 0, 0, 0, 3⟩, ⟨false, 0, 0, 0, 4⟩] (by decide)
  exact ⟨h1, h2, h3, hB 0 1 1 256 (fun _ _ => 0) (fun _ _ => 0) true,
    hC 1 1 1 (fun v => v) (fun _ _ => 0), (hD 100 7).1, (hD 100 7).2⟩

theorem curriculumStep_skip (using_thr : Bool) (tids : Option (List ℤ))
    (dis : List ℤ) (inp : CurriculumFrameIn)
    (h : using_thr = false ∨ dis ≠ []) :
    (curriculumStep using_thr tids dis inp).disappear_tgt_id = none ∧
    (curriculumStep using_thr tids dis inp).disappeared_tgt_ids = dis := by
  cases tids with
  | none => exact ⟨rfl, rfl⟩
  | some l =>
    simp only [curriculumStep]
    by_cases hl : 2 < l.length
    · rw [if_pos hl]
      have hcond : ((!using_thr) || decide (0 < dis.length)) = true := by
        rcases h with h | h
        · rw [h]; rfl
        · have : 0 < dis.length := List.length_pos.mpr h
          simp [this]
      rw [if_pos hcond]
      exact ⟨rfl, rfl⟩
    · rw [if_neg hl]
      exact ⟨rfl, rfl⟩

theorem curriculumStep_cases (u : Bool) (tids : Option (List ℤ))
    (dis : List ℤ) (inp : CurriculumFrameIn) :
    ((curriculumStep u tids dis inp).disappear_tgt_id = none ∧
     (curriculumStep u tids dis inp).disappeared_tgt_ids = dis) ∨
    (∃ t, (curriculumStep u tids dis inp).disappear_tgt_id = some t ∧
      (curriculumStep u tids dis inp).disappeared_tgt_ids = dis ++ [t]) := by
  cases tids with
  | none => exact Or.inl ⟨rfl, rfl⟩
  | some l =>
    simp only [curriculumStep]
    by_cases hl : 2 < l.length
    · rw [if_pos hl]
      by_cases hc : ((!u) || decide (0 < dis.length)) = true
      · rw [if_pos hc]
        exact Or.inl ⟨rfl, rfl⟩
      · rw [if_neg hc]
        by_cases hsel : l.getD inp.select_idx 0 ≠ -1 ∧
            l.getD inp.select_idx 0 ∈ inp.frame_tgt_ids
        · rw [if_pos hsel]
          exact Or.inr ⟨l.getD inp.select_idx 0, rfl, rfl⟩
        · rw [if_neg hsel]
          exact Or.inl ⟨rfl, rfl⟩
    · rw [if_neg hl]
      exact Or.inl ⟨rfl, rfl⟩

theorem curriculumFrames_all_sentinel (using_thr : Bool) :
    ∀ (frames : List (Option (List ℤ) × CurriculumFrameIn)) (dis : List ℤ),
      dis ≠ [] →
      ∀ z ∈ curriculumFrames using_thr dis frames, z = -10000 := by
  intro frames
  induction frames with
  | nil => intro dis _ z hz; cases hz
  | cons f fs ih =>
    intro dis hdis z hz
    simp only [curriculumFrames] at hz
    obtain ⟨hskip, hpres⟩ :=
      curriculumStep_skip using_thr f.1 dis f.2 (Or.inr hdis)
    rcases List.mem_cons.mp hz with h | h
    · rw [h, hskip]; rfl
    · rw [hpres] at h
      exact ih dis hdis z h

theorem curriculumFrames_at_most_one (using_thr : Bool) :
    ∀ frames : List (Option (List ℤ) × CurriculumFrameIn),
      ((curriculumFrames using_thr [] frames).countP
        fun z => decide (z ≠ -10000)) ≤ 1 := by
  intro frames
  induction frames with
  | nil => simp [curriculumFrames]
  | cons f fs ih =>
    simp only [curriculumFrames, List.countP_cons]
    rcases curriculumStep_cases using_thr f.1 [] f.2 with ⟨hnone, hpres⟩ |
      ⟨t, hsome, happ⟩
    · rw [hnone, hpres]
      have : (decide ((emitDisappearTgtId none) ≠ -10000)) = false := by
        simp [emitDisappearTgtId]
      rw [this]
      simpa using ih
    · rw [happ]
      have hrest : ((curriculumFrames using_thr ([] ++ [t]) fs).countP
          fun z => decide (z ≠ -10000)) = 0 := by
        rw [List.countP_eq_zero]
        intro a ha
        have := curriculumFrames_all_sentinel using_thr fs ([] ++ [t])
          (by simp) a ha
        simp [this]
      rw [hrest]
      split <;> omega

/-- C4 counterexample against the claim as stated: with the gated mode
(`using_thr = true`) active, no identity yet forced absent, 4 tracked
targets and a drawn target id present in the frame, the code does NOT
skip the injection: a non-sentinel `disappear_tgt_id` is produced.  The
source skips when `not using_thr` holds, the opposite polarity of the
claim. -/
theorem C4_curriculum_skip_counterexample :
    (curriculumStep true (some [4, 5, 6]) [] ⟨0, [4, 5], [4, -1]⟩).disappear_tgt_id
      = some 4 ∧
    emitDisappearTgtId
      (curriculumStep true (some [4, 5, 6]) [] ⟨0, [4, 5], [4, -1]⟩).disappear_tgt_id
      ≠ -10000 := by
  constructor
  · decide
  · decide

/-- C4 (amended): injection is skipped whenever the gated/confidence
mode is INACTIVE (`not using_thr`) or some identity was already forced
absent earlier in the same sample window; consequently, within one
forward call over an unresumed sequence, at most one frame records a
non-sentinel `disappear_tgt_id`. -/
theorem C4_curriculum_skip_amended (using_thr : Bool) :
    (∀ (tids : Option (List ℤ)) (dis : List ℤ) (inp : CurriculumFrameIn),
      using_thr = false ∨ dis ≠ [] →
      (curriculumStep using_thr tids dis inp).disappear_tgt_id = none ∧
      emitDisappearTgtId
        (curriculumStep using_thr tids dis inp).disappear_tgt_id = -10000) ∧
    (∀ frames : List (Option (List ℤ) × CurriculumFrameIn),
      ((curriculumRunEmits using_thr frames).countP
        fun z => decide (z ≠ -10000)) ≤ 1) := by
  constructor
  · intro tids dis inp h
    obtain ⟨h1, _⟩ := curriculumStep_skip using_thr tids dis inp h
    exact ⟨h1, by rw [h1]; rfl⟩
  · intro frames
    simp only [curriculumRunEmits, List.countP_cons]
    have hhead : (decide ((-10000 : ℤ) ≠ -10000)) = false := by decide
    rw [hhead]
    simpa using curriculumFrames_at_most_one using_thr frames

/-- Concrete instance backing `C4_curriculum_skip_amended`: a skip in
ungated mode, and a two-frame run with at most one non-sentinel. -/
theorem C4_curriculum_skip_amended_witness :
    ((curriculumStep false (some [4, 5, 6]) [] ⟨0, [4, 5], [4, -1]⟩).disappear_tgt_id
       = none ∧
     emitDisappearTgtId
       (curriculumStep false (some [4, 5, 6]) [] ⟨0, [4, 5], [4, -1]⟩).disappear_tgt_id
       = -10000) ∧
    ((curriculumRunEmits false
        [(some [4, 5, 6], ⟨0, [4, 5], [4, -1]⟩),
         (some [4, 5, 6], ⟨0, [4, 5], [4, -1]⟩)]).countP
      fun z => decide (z ≠ -10000)) ≤ 1 := by
  refine ⟨?_, ?_⟩
  · exact (C4_curriculum_skip_amended false).1 (some [4, 5, 6]) []
      ⟨0, [4, 5], [4, -1]⟩ (Or.inl rfl)
  · exact (C4_curriculum_skip_amended false).2
      [(some [4, 5, 6], ⟨0, [4, 5], [4, -1]⟩),
       (some [4, 5, 6], ⟨0, [4, 5], [4, -1]⟩)]

/-- C3 counterexample against the claim as stated: with exactly 2
identities under track (`len(tgt_ids_for_track_queries) = 2`) and every
other precondition favourable (gated mode, no prior disappearance, the
drawn target valid and present in the frame), no slot is picked and the
sentinel is emitted — the source requires strictly more than 2. -/
theorem C3_curriculum_trigger_counterexample :
    (curriculumStep true (some [4, 5]) [] ⟨0, [4, 5], [4, -1]⟩).disappear_tgt_id
      = none ∧
    (curriculumStep true (some [4, 5]) [] ⟨0, [4, 5], [4, -1]⟩).disappear_trcQ_id
      = none ∧
    emitDisappearTgtId
      (curriculumStep true (some [4, 5]) [] ⟨0, [4, 5], [4, -1]⟩).disappear_tgt_id
      = -10000 := by
  refine ⟨?_, ?_, ?_⟩ <;> decide

theorem curriculumStep_no_fire_small (u : Bool) (tids : Option (List ℤ))
    (dis : List ℤ) (inp : CurriculumFrameIn)
    (h : ∀ l, tids = some l → l.length ≤ 2) :
    (curriculumStep u tids dis inp).disappear_tgt_id = none ∧
    (curriculumStep u tids dis inp).disappeared_tgt_ids = dis := by
  cases tids with
  | none => exact ⟨rfl, rfl⟩
  | some l =>
    simp only [curriculumStep]
    rw [if_neg (by have := h l rfl; omega)]
    exact ⟨rfl, rfl⟩

/-- C3 (amended): the disappearance curriculum fires only when strictly
more than 2 identities are under track: whenever
`len(tgt_ids_for_track_queries) > 2` and the remaining preconditions
hold (gated mode, first injection of the window, drawn target id valid
and present in the frame), the drawn slot injects and is recorded; with
2 or fewer currently tracked identities (in particular with only 1) the
curriculum never fires and every frame of the sequence emits the
sentinel `-10000`. -/
theorem C3_curriculum_trigger_amended :
    (∀ (u : Bool) (tids : List ℤ) (dis : List ℤ) (inp : CurriculumFrameIn),
       u = true → dis = [] → 2 < tids.length → inp.select_idx < tids.length →
       tids.getD inp.select_idx 0 ≠ -1 →
       tids.getD inp.select_idx 0 ∈ inp.frame_tgt_ids →
       (curriculumStep u (some tids) dis inp).disappear_tgt_id =
         some (tids.getD inp.select_idx 0) ∧
       (curriculumStep u (some tids) dis inp).disappear_trcQ_id =
         some inp.select_idx) ∧
    (∀ (u : Bool) (tids : List ℤ) (dis : List ℤ) (inp : CurriculumFrameIn),
       tids.length ≤ 2 →
       (curriculumStep u (some tids) dis inp).disappear_tgt_id = none ∧
       emitDisappearTgtId
         (curriculumStep u (some tids) dis inp).disappear_tgt_id = -10000) ∧
    (∀ (u : Bool) (frames : List (Option (List ℤ) × CurriculumFrameIn)),
       (∀ f ∈ frames, ∀ tids, f.1 = some tids → tids.length ≤ 2) →
       curriculumRunEmits u frames =
         List.replicate (frames.length + 1) (-10000)) := by
  refine ⟨?_, ?_, ?_⟩
  · intro u tids dis inp hu hdis hlen hsel hne hmem
    subst hu
    subst hdis
    simp only [curriculumStep]
    rw [if_pos hlen]
    rw [if_neg (by simp)]
    rw [if_pos ⟨hne, hmem⟩]
    exact ⟨rfl, rfl⟩
  · intro u tids dis inp hlen
    obtain ⟨h1, _⟩ := curriculumStep_no_fire_small u (some tids) dis inp
      (fun l hl => by cases hl; exact hlen)
    exact ⟨h1, by rw [h1]; rfl⟩
  · intro u frames
    have hgen : ∀ (frames : List (Option (List ℤ) × CurriculumFrameIn))
        (dis : List ℤ),
        (∀ f ∈ frames, ∀ tids, f.1 = some tids → tids.length ≤ 2) →
        curriculumFrames u dis frames =
          List.replicate frames.length (-10000) := by
      intro fr
      induction fr with
      | nil => intro dis _; rfl
      | cons f fs ih =>
        intro dis hsmall
        simp only [curriculumFrames]
        obtain ⟨h1, h2⟩ := curriculumStep_no_fire_small u f.1 dis f.2
          (fun l hl => hsmall f (List.mem_cons_self _ _) l hl)
        rw [h1, h2, ih dis
          (fun g hg l hl => hsmall g (List.mem_cons_of_mem _ hg) l hl)]
        rfl
    intro hsmall
    simp only [curriculumRunEmits]
    rw [hgen frames [] hsmall]
    rfl

/-- Concrete instance backing `C3_curriculum_trigger_amended`: a firing
step with 3 tracked targets, a silent step with 1 tracked target, and a
two-frame run over small track sets emitting only sentinels. -/
theorem C3_curriculum_trigger_amended_witness :
    ((curriculumStep true (some [4, 5, 6]) [] ⟨1, [5, 9], [5, 4]⟩).disappear_tgt_id
       = some 5 ∧
     (curriculumStep true (some [4, 5, 6]) [] ⟨1, [5, 9], [5, 4]⟩).disappear_trcQ_id
       = some 1) ∧
    ((curriculumStep true (some [4]) [] ⟨0, [4], [4]⟩).disappear_tgt_id = none ∧
     emitDisappearTgtId
       (curriculumStep true (some [4]) [] ⟨0, [4], [4]⟩).disappear_tgt_id
       = -10000) ∧
    curriculumRunEmits true
        [(some [1, 2], ⟨0, [1], [1]⟩), (none, ⟨0, [], []⟩)] =
      List.replicate 3 (-10000) := by
  refine ⟨?_, ?_, ?_⟩
  · exact C3_curriculum_trigger_amended.1 true [4, 5, 6] [] ⟨1, [5, 9], [5, 4]⟩
      rfl rfl (by decide) (by decide) (by decide) (by decide)
  · exact C3_curriculum_trigger_amended.2.1 true [4] [] ⟨0, [4], [4]⟩ (by decide)
  · exact C3_curriculum_trigger_amended.2.2 true
      [(some [1, 2], ⟨0, [1], [1]⟩), (none, ⟨0, [], []⟩)] (by decide)

theorem mem_kickOutSrcIndices_iff :
    ∀ (srcs : List ℕ) (drops : List Bool) (q : ℕ),
      drops.length = srcs.length →
      (q ∈ kickOutSrcIndices srcs drops ↔
        ∃ i, ∃ h : i < srcs.length, srcs.get ⟨i, h⟩ = q ∧
          drops.getD i false = true) := by
  intro srcs
  induction srcs with
  | nil =>
    intro drops q hlen
    simp [kickOutSrcIndices]
  | cons s t ih =>
    intro drops q hlen
    cases drops with
    | nil => simp at hlen
    | cons d ds =>
      have hlen2 : ds.length = t.length := by simpa using hlen
      cases d with
      | true =>
        have hk : kickOutSrcIndices (s :: t) (true :: ds) =
            s :: kickOutSrcIndices t ds := rfl
        rw [hk]
        constructor
        · intro hq
          rcases List.mem_cons.mp hq with h | h
          · exact ⟨0, Nat.succ_pos _, h.symm, rfl⟩
          · obtain ⟨i, hi, hgi, hdi⟩ := (ih ds q hlen2).mp h
            exact ⟨i + 1, Nat.succ_lt_succ hi, hgi, hdi⟩
        · rintro ⟨i, hi, hgi, hdi⟩
          cases i with
          | zero =>
            rw [← hgi]
            exact List.mem_cons_self _ _
          | succ j =>
            apply List.mem_cons_of_mem
            exact (ih ds q hlen2).mpr ⟨j, Nat.lt_of_succ_lt_succ hi, hgi, hdi⟩
      | false =>
        have hk : kickOutSrcIndices (s :: t) (false :: ds) =
            kickOutSrcIndices t ds := rfl
        rw [hk]
        constructor
        · intro hq
          obtain ⟨i, hi, hgi, hdi⟩ := (ih ds q hlen2).mp hq
          exact ⟨i + 1, Nat.succ_lt_succ hi, hgi, hdi⟩
        · rintro ⟨i, hi, hgi, hdi⟩
          cases i with
          | zero => cases hdi
          | succ j =>
            exact (ih ds q hlen2).mpr ⟨j, Nat.lt_of_succ_lt_succ hi, hgi, hdi⟩

theorem mem_srcs_of_mem_kickOut :
    ∀ (srcs : List ℕ) (drops : List Bool) (q : ℕ),
      q ∈ kickOutSrcIndices srcs drops → q ∈ srcs := by
  intro srcs
  induction srcs with
  | nil => intro drops q hq; simp [kickOutSrcIndices] at hq
  | cons s t ih =>
    intro drops q hq
    cases drops with
    | nil => simp [kickOutSrcIndices] at hq
    | cons d ds =>
      cases d with
      | true =>
        have hk : kickOutSrcIndices (s :: t) (true :: ds) =
            s :: kickOutSrcIndices t ds := rfl
        rw [hk] at hq
        rcases List.mem_cons.mp hq with h | h
        · rw [h]; exact List.mem_cons_self _ _
        · exact List.mem_cons_of_mem _ (ih ds q h)
      | false =>
        have hk : kickOutSrcIndices (s :: t) (false :: ds) =
            kickOutSrcIndices t ds := rfl
        rw [hk] at hq
        exact List.mem_cons_of_mem _ (ih ds q hq)

/-- C5 counterexample against the claim as stated: on the first frame
with the gate disabled, matcher assignment `query 0 ↦ target 3`, drop
coin false, the unmatched query 1 (its `tgt_ids_for_each_query` entry is
`-1`) is nevertheless VALID — `valid_track_query = ~disappearance_mask`
keeps every non-kicked query, unmatched ones included, contradicting
the claim that every query with no assigned target is invalid. -/
theorem C5_training_validity_counterexample :
    validTrackQueryFirstFrame [0] [false] 1 = true ∧
    tgtIdsFirstFrame [0] [3] [false] 1 = -1 := by
  constructor
  · decide
  · decide

/-- C5 (amended): with the confidence gate disabled, on the first
(unresumed) frame a query is invalid exactly when it is a matched query
selected by the random ~50% drop (the drop coins are oracle inputs
here); unmatched queries are kept as valid on that frame.  On every
subsequent frame a query is valid exactly when the matcher assigned it
a target, with no random drop. -/
theorem C5_training_validity_amended :
    (∀ (srcs : List ℕ) (drops : List Bool) (q : ℕ),
       drops.length = srcs.length →
       (validTrackQueryFirstFrame srcs drops q = false ↔
         ∃ i, ∃ h : i < srcs.length, srcs.get ⟨i, h⟩ = q ∧
           drops.getD i false = true)) ∧
    (∀ (srcs : List ℕ) (drops : List Bool) (q : ℕ),
       q ∉ srcs → validTrackQueryFirstFrame srcs drops q = true) ∧
    (∀ (srcs : List ℕ) (q : ℕ),
       validTrackQueryLaterFrame srcs q = true ↔ q ∈ srcs) := by
  refine ⟨?_, ?_, ?_⟩
  · intro srcs drops q hlen
    unfold validTrackQueryFirstFrame
    rw [← mem_kickOutSrcIndices_iff srcs drops q hlen]
    simp
  · intro srcs drops q hq
    unfold validTrackQueryFirstFrame
    simp only [Bool.not_eq_true']
    simp only [decide_eq_false_iff_not]
    intro hk
    exact hq (mem_srcs_of_mem_kickOut srcs drops q hk)
  · intro srcs q
    unfold validTrackQueryLaterFrame
    simp

/-- Concrete instance backing `C5_training_validity_amended`. -/
theorem C5_training_validity_amended_witness :
    ((validTrackQueryFirstFrame [0, 2] [true, false] 0 = false ↔
       ∃ i, ∃ h : i < ([0, 2] : List ℕ).length,
         ([0, 2] : List ℕ).get ⟨i, h⟩ = 0 ∧
         ([true, false] : List Bool).getD i false = true)) ∧
    validTrackQueryFirstFrame [0, 2] [true, false] 5 = true ∧
    (validTrackQueryLaterFrame [0, 2] 2 = true ↔ (2 : ℕ) ∈ [0, 2]) := by
  refine ⟨?_, ?_, ?_⟩
  · exact C5_training_validity_amended.1 [0, 2] [true, false] 0 (by decide)
  · exact C5_training_validity_amended.2.1 [0, 2] [true, false] 5 (by decide)
  · exact C5_training_validity_amended.2.2 [0, 2] 2

/-- C6: inference-mode validity gate.  A query is valid exactly when
the maximum over the foreground classes (background column excluded) of
its softmax class probabilities strictly exceeds
`inference_select_thr`, equivalently when some foreground class
probability strictly exceeds the threshold; and the inequality is
strict: a query whose top foreground probability merely equals the
threshold is not valid. -/
theorem C6_inference_validity_gate {m : ℕ} (thr : ℝ)
    (logits : Fin (m + 2) → ℝ) :
    (validQuery thr logits ↔
      ∃ j : Fin (m + 1), thr < softmaxProb logits j.castSucc) ∧
    ¬ validQuery (predScore logits) logits := by
  constructor
  · unfold validQuery predScore
    rw [Finset.lt_sup'_iff]
    simp
  · unfold validQuery
    exact lt_irrefl _

theorem chunk_slices_join {α : Type} (cs : ℕ) (hcs : 0 < cs) :
    ∀ (q : ℕ) (cols : List α), cols.length = q →
      ((List.range (cols.length / cs + 1)).map fun i =>
        pythonSlice cols (i * cs)
          (if i * cs + cs < cols.length then i * cs + cs
           else cols.length)).flatten = cols := by
  intro q
  induction q using Nat.strong_induction_on with
  | _ q ih =>
    intro cols hq
    by_cases hle : cs ≤ cols.length
    · have hdiv : cols.length / cs = (cols.length - cs) / cs + 1 :=
        Nat.div_eq_sub_div hcs hle
      have hhead : pythonSlice cols (0 * cs)
          (if 0 * cs + cs < cols.length then 0 * cs + cs else cols.length) =
          cols.take cs := by
        simp only [Nat.zero_mul, Nat.zero_add, pythonSlice, List.drop_zero,
          Nat.sub_zero]
        by_cases h : cs < cols.length
        · rw [if_pos h]
        · rw [if_neg h, List.take_length, List.take_of_length_le (by omega)]
      have htail : ((List.range ((cols.length - cs) / cs + 1)).map fun j =>
          pythonSlice cols ((j + 1) * cs)
            (if (j + 1) * cs + cs < cols.length then (j + 1) * cs + cs
             else cols.length)).flatten = cols.drop cs := by
        have hlen' : (cols.drop cs).length = cols.length - cs := by simp
        have hrec := ih (cols.length - cs) (by omega) (cols.drop cs) hlen'
        rw [hlen'] at hrec
        rw [← hrec]
        congr 1
        apply List.map_congr_left
        intro j _
        have h1 : (j + 1) * cs = j * cs + cs := by ring
        have hdd : (cols.drop cs).drop (j * cs) = cols.drop (j * cs + cs) := by
          rw [List.drop_drop, Nat.add_comm]
        unfold pythonSlice
        rw [h1, hdd]
        congr 1
        generalize j * cs = a
        by_cases hc : a + cs + cs < cols.length
        · rw [if_pos (by omega : a + cs + cs < cols.length),
            if_pos (by omega : a + cs < cols.length - cs)]
          omega
        · rw [if_neg (by omega : ¬ a + cs + cs < cols.length),
            if_neg (by omega : ¬ a + cs < cols.length - cs)]
          omega
      rw [hdiv, List.range_succ_eq_map]
      simp only [List.map_cons, List.flatten_cons, List.map_map]
      have hfun : ((List.range ((cols.length - cs) / cs + 1)).map
          ((fun i => pythonSlice cols (i * cs)
            (if i * cs + cs < cols.length then i * cs + cs
             else cols.length)) ∘ Nat.succ)) =
          (List.range ((cols.length - cs) / cs + 1)).map fun j =>
            pythonSlice cols ((j + 1) * cs)
              (if (j + 1) * cs + cs < cols.length then (j + 1) * cs + cs
               else cols.length) := by
        apply List.map_congr_left
        intro j _
        rfl
      rw [hfun, hhead, htail, List.take_append_drop]
    · have hdiv : cols.length / cs = 0 := Nat.div_eq_of_lt (by omega)
      rw [hdiv, show List.range 1 = [0] from by simp [List.range_succ]]
      simp only [List.map_cons, List.map_nil, List.flatten_cons,
        List.flatten_nil, List.append_nil]
      rw [if_neg (by omega : ¬ 0 * cs + cs < cols.length)]
      simp [pythonSlice]

/-- C8: chunking of the mask-guided descriptor is numerically
transparent.  For every input (key map, mask-feature map, per-query key
columns and mask logits), the concatenation of the per-chunk readouts
produced by processing queries 50 at a time equals the result of
processing all queries in a single chunk, and equals the per-query map
of the single-column readout: each descriptor depends only on its own
column of the affinity computation, not on the chunk partition. -/
theorem C8_chunking_transparent (n C Cm D : ℕ) (mk : Fin (n + 1) → Fin C → ℝ)
    (mfeat : Fin (n + 1) → Fin Cm → ℝ) (mask_out : Bool)
    (cols : List ((Fin C → ℝ) × (Fin (n + 1) → ℝ))) :
    getMaskPosEmbedChunks n C Cm D mk mfeat mask_out cols =
      getMaskPosEmbedSingle n C Cm D mk mfeat mask_out cols ∧
    ∀ (i : ℕ) (h : i < cols.length),
      (getMaskPosEmbedChunks n C Cm D mk mfeat mask_out cols).getD i
          (fun _ => 0) =
        colReadout n C Cm D mk mfeat mask_out (cols.get ⟨i, h⟩).1
          (cols.get ⟨i, h⟩).2 := by
  have hmain : getMaskPosEmbedChunks n C Cm D mk mfeat mask_out cols =
      cols.map fun qm => colReadout n C Cm D mk mfeat mask_out qm.1 qm.2 := by
    unfold getMaskPosEmbedChunks
    have hcomp : ((List.range (cols.length / 50 + 1)).map fun i =>
        (pythonSlice cols (i * 50)
          (if i * 50 + 50 < cols.length then i * 50 + 50
           else cols.length)).map fun qm =>
            colReadout n C Cm D mk mfeat mask_out qm.1 qm.2) =
        ((List.range (cols.length / 50 + 1)).map fun i =>
          pythonSlice cols (i * 50)
            (if i * 50 + 50 < cols.length then i * 50 + 50
             else cols.length)).map
          (List.map fun qm => colReadout n C Cm D mk mfeat mask_out qm.1 qm.2) := by
      rw [List.map_map]
      rfl
    rw [hcomp, ← List.map_flatten,
      chunk_slices_join 50 (by omega) cols.length cols rfl]
  refine ⟨hmain, ?_⟩
  intro i h
  rw [hmain]
  rw [List.getD_eq_getElem _ _ (by simpa using h)]
  simp

/-- Concrete instance backing `C8_chunking_transparent`: a single query
column. -/
theorem C8_chunking_transparent_witness :
    (getMaskPosEmbedChunks 0 1 1 256 (fun _ _ => 0) (fun _ _ => 0) true
        [(fun _ => 1, fun _ => 1)] =
      getMaskPosEmbedSingle 0 1 1 256 (fun _ _ => 0) (fun _ _ => 0) true
        [(fun _ => 1, fun _ => 1)]) ∧
    (getMaskPosEmbedChunks 0 1 1 256 (fun _ _ => 0) (fun _ _ => 0) true
        [(fun _ => 1, fun _ => 1)]).getD 0 (fun _ => 0) =
      colReadout 0 1 1 256 (fun _ _ => 0) (fun _ _ => 0) true
        (([(fun _ => 1, fun _ => 1)] :
            List ((Fin 1 → ℝ) × (Fin 1 → ℝ))).get ⟨0, by decide⟩).1
        (([(fun _ => 1, fun _ => 1)] :
            List ((Fin 1 → ℝ) × (Fin 1 → ℝ))).get ⟨0, by decide⟩).2 := by
  obtain ⟨h1, h2⟩ := C8_chunking_transparent 0 1 1 256 (fun _ _ => 0)
    (fun _ _ => 0) true [(fun _ => 1, fun _ => 1)]
  exact ⟨h1, h2 0 (by decide)⟩

end
